import Mathlib

set_option autoImplicit false

/-!
Shallow embedding of the aqylly HTTP router core (tree.go, router.go,
context.go, group.go, middleware.go).

Modelling conventions:
* Go strings are `List Char` (the Go code indexes raw bytes; all router logic
  is byte-wise comparison against ASCII characters).
* Go's `map[string]HandlerFunc` is an association list with overwrite-on-set;
  reading a missing key yields `none` (Go: the zero value / nil).
* Go `panic` (both explicit panics and runtime panics such as index out of
  range) is `Except.error` carrying the panic message.
* Handler values are a type parameter `α`: the tree stores them opaquely.
-/

namespace Aqylly

/-- Go map read `m[k]`: the mapped value, or `none` when the key is absent. -/
def mapGet {κ : Type} [DecidableEq κ] {α : Type} (m : List (κ × α)) (k : κ) : Option α :=
  match m with
  | [] => none
  | (k', v) :: rest => if k' = k then some v else mapGet rest k

/-- Go map write `m[k] = v`: overwrites an existing binding or adds one. -/
def mapSet {κ : Type} [DecidableEq κ] {α : Type} (m : List (κ × α)) (k : κ) (v : α) :
    List (κ × α) :=
  match m with
  | [] => [(k, v)]
  | (k', v') :: rest => if k' = k then (k, v) :: rest else (k', v') :: mapSet rest k v

/-- nodeType from tree.go. -/
inductive NType where
  | static
  | root
  | param
  | catchAll
  deriving DecidableEq, Repr

/-- node from tree.go.  `handlers` is Go's `map[string]HandlerFunc` with the
handler type left as a parameter; `params` is the wildcard-name list. -/
inductive Node (α : Type) : Type where
  | mk (path : List Char) (indices : List Char) (wildChild : Bool)
      (nType : NType) (priority : Nat) (children : List (Node α))
      (handlers : List (String × α)) (params : List (List Char)) : Node α

namespace Node

variable {α : Type}

def path : Node α → List Char
  | .mk p _ _ _ _ _ _ _ => p

def indices : Node α → List Char
  | .mk _ i _ _ _ _ _ _ => i

def wildChild : Node α → Bool
  | .mk _ _ w _ _ _ _ _ => w

def nType : Node α → NType
  | .mk _ _ _ t _ _ _ _ => t

def priority : Node α → Nat
  | .mk _ _ _ _ pr _ _ _ => pr

def children : Node α → List (Node α)
  | .mk _ _ _ _ _ cs _ _ => cs

def handlers : Node α → List (String × α)
  | .mk _ _ _ _ _ _ hs _ => hs

def params : Node α → List (List Char)
  | .mk _ _ _ _ _ _ _ ps => ps

/-- The zero node `&node{}` of Go. -/
def empty : Node α := .mk [] [] false .static 0 [] [] []

instance : Inhabited (Node α) := ⟨empty⟩

mutual

/-- Number of nodes in the tree (used as recursion fuel). -/
def size : Node α → Nat
  | .mk _ _ _ _ _ cs _ _ => 1 + sizeList cs

def sizeList : List (Node α) → Nat
  | [] => 0
  | c :: cs => size c + sizeList cs

end

/-- Bump a node's priority by one (`n.priority++`). -/
def bumpPrio : Node α → Node α
  | .mk p i w t pr cs hs ps => .mk p i w t (pr + 1) cs hs ps

/-- Overwrite a node's nType (`n.nType = root`). -/
def setNType : Node α → NType → Node α
  | .mk p i w _ pr cs hs ps, t => .mk p i w t pr cs hs ps

/-- Replace the child at position `j`. -/
def setChildAt : Node α → Nat → Node α → Node α
  | .mk p i w t pr cs hs ps, j, c => .mk p i w t pr (cs.set j c) hs ps

end Node

/-- longestCommonPrefix from tree.go. -/
def longestCommonPrefix : List Char → List Char → Nat
  | x :: a, y :: b => if x = y then longestCommonPrefix a b + 1 else 0
  | _, _ => 0

/-- Inner scan of findWildcard: collect the wildcard body up to the next '/',
clearing `valid` when a second ':' or '*' appears in the same segment. -/
def wcScan : List Char → Bool → List Char × Bool
  | [], valid => ([], valid)
  | ch :: rest, valid =>
    if ch = '/' then ([], valid)
    else
      let valid' := if ch = ':' ∨ ch = '*' then false else valid
      let (body, v) := wcScan rest valid'
      (ch :: body, v)

/-- findWildcard from tree.go; `none` models the `("", -1, false)` miss. -/
def findWildcard : List Char → Option (List Char × Nat × Bool)
  | [] => none
  | c :: rest =>
    if c ≠ ':' ∧ c ≠ '*' then
      match findWildcard rest with
      | some (w, i, v) => some (w, i + 1, v)
      | none => none
    else
      let (body, v) := wcScan rest true
      some (c :: body, 0, v)

/-- First index of `c` in `indices` (the scan loops of tree.go). -/
def listFindIdx : List Char → Char → Option Nat
  | [], _ => none
  | x :: rest, c => if x = c then some 0 else (listFindIdx rest c).map (· + 1)

namespace Node

variable {α : Type}

/-- Priority of the child at position `k` (total; in-bounds in all uses). -/
def priorityAt (l : List (Node α)) (k : Nat) : Nat :=
  match l.get? k with
  | some c => c.priority
  | none => 0

/-- Swap the list elements at positions `k` and `k + 1`. -/
def swapAdj : List (Node α) → Nat → List (Node α)
  | x :: y :: rest, 0 => y :: x :: rest
  | x :: rest, k + 1 => x :: swapAdj rest k
  | l, _ => l

/-- Bump the priority of the element at position `pos`. -/
def listBumpAt : List (Node α) → Nat → List (Node α)
  | [], _ => []
  | c :: cs, 0 => bumpPrio c :: cs
  | c :: cs, k + 1 => c :: listBumpAt cs k

/-- The move-to-front loop of incrementChildPrio: while `newPos > 0` and the
left neighbour's priority is below `prio`, swap and step left. -/
def icpLoop : List (Node α) → Nat → Nat → List (Node α) × Nat
  | cs, _, 0 => (cs, 0)
  | cs, prio, k + 1 =>
    if priorityAt cs k < prio then icpLoop (swapAdj cs k) prio k
    else (cs, k + 1)

/-- incrementChildPrio from tree.go, functionalised: returns the new position
of the bumped child together with the updated parent node.  The Go string
surgery on `indices` is reproduced with take/drop. -/
def incrementChildPrio : Node α → Nat → Nat × Node α
  | .mk p ind w t pr cs hs ps, pos =>
    let cs := listBumpAt cs pos
    let prio := priorityAt cs pos
    let (cs', newPos) := icpLoop cs prio pos
    let ind' :=
      if newPos ≠ pos then
        ind.take newPos ++ (ind.drop pos).take 1 ++
          (ind.drop newPos).take (pos - newPos) ++ ind.drop (pos + 1)
      else ind
    (newPos, .mk p ind' w t pr cs' hs ps)

/-- insertChild from tree.go.  The Go loop mutates `n` down a chain of fresh
nodes; here each `continue` becomes a recursive call returning the updated
subtree.  Fuel bounds the iterations (each consumes the wildcard segment). -/
def insertChild : Nat → Node α → List Char → String → α → Except String (Node α)
  | 0, _, _, _, _ => .error "insertChild: out of fuel"
  | fuel + 1, n, path, method, handler =>
    match findWildcard path with
    | none =>
      -- no wildcard: n.path = path; n.handlers[method] = handler
      match n with
      | .mk _ ind w t pr cs hs ps =>
        .ok (.mk path ind w t pr cs (mapSet hs method handler) ps)
    | some (wildcard, i, valid) =>
      if !valid then .error "only one wildcard per path segment is allowed"
      else if wildcard.length < 2 then
        .error "wildcards must be named with a non-empty name"
      else if n.children.length > 0 then
        .error "wildcard segment conflicts with existing children"
      else if wildcard.get? 0 = some ':' then
        -- named parameter
        let nPath := if 0 < i then path.take i else n.path
        let path1 := if 0 < i then path.drop i else path
        if wildcard.length < path1.length then
          -- path continues past the wildcard: fresh static child below it
          let rest := path1.drop wildcard.length
          match insertChild fuel (.mk [] [] false .static 1 [] [] []) rest method handler with
          | .error e => .error e
          | .ok sub =>
            let child : Node α := .mk wildcard [] false .param 1 [sub] [] []
            .ok (.mk nPath n.indices true n.nType n.priority [child] n.handlers n.params)
        else
          -- wildcard ends the path: install the handler on the param node
          let child : Node α :=
            .mk wildcard [] false .param 1 [] (mapSet [] method handler) [wildcard.drop 1]
          .ok (.mk nPath n.indices true n.nType n.priority [child] n.handlers n.params)
      else
        -- catch-all
        if i + wildcard.length ≠ path.length then
          .error "catch-all routes are only allowed at the end of the path"
        else if n.path.length > 0 ∧ n.path.getLast? = some '/' then
          .error "catch-all conflicts with existing handle for the path segment root"
        else if i = 0 then
          -- Go decrements i to -1 and evaluates path[-1]: runtime panic
          .error "runtime error: index out of range"
        else
          let j := i - 1
          if (path.get? j ≠ some '/') then .error "no / before catch-all"
          else
            let child2 : Node α :=
              .mk (path.drop j) [] false .catchAll 1 [] (mapSet [] method handler)
                [wildcard.drop 1]
            let child1 : Node α := .mk [] [] true .catchAll 1 [child2] [] []
            .ok (.mk (path.take j) ((path.drop j).take 1) n.wildChild n.nType n.priority
              [child1] n.handlers n.params)

/-- The `walk` loop of addRoute from tree.go.  Pointer mutation becomes
rebuilding: descending into child `j` wraps the recursive result back at `j`.
After appending a fresh child, Go keeps a pointer to it across the
incrementChildPrio call; `childIdx` tracks that position. -/
def addRouteWalk : Nat → Node α → List Char → String → α → Except String (Node α)
  | 0, _, _, _, _ => .error "addRoute: out of fuel"
  | fuel + 1, n0, path, method, handler =>
    let i := longestCommonPrefix path n0.path
    -- split edge
    let n : Node α :=
      if i < n0.path.length then
        match n0 with
        | .mk p ind w t pr cs hs ps =>
          let child : Node α := .mk (p.drop i) ind w .static (pr - 1) cs hs ps
          .mk (path.take i) ((p.drop i).take 1) false t pr [child] [] []
      else n0
    if i < path.length then
      match path.drop i with
      | [] => .error "runtime error: empty path"
      | c :: _ =>
        match listFindIdx n.indices c with
        | some j =>
          -- descend into the child with matching first byte
          let (j', n') := incrementChildPrio n j
          match n'.children.get? j' with
          | none => .error "runtime error: child index"
          | some child =>
            match addRouteWalk fuel child (path.drop i) method handler with
            | .error e => .error e
            | .ok child' => .ok (n'.setChildAt j' child')
        | none =>
          if c ≠ ':' ∧ c ≠ '*' then
            -- append a fresh child, bump prio at indices-derived position,
            -- then insert below the fresh child
            match n with
            | .mk p ind w t pr cs hs ps =>
              let ind' := ind ++ [c]
              let cs' := cs ++ [(Node.empty : Node α)]
              let lastIdx := cs'.length - 1
              let pos := ind'.length - 1
              let (newPos, n') := incrementChildPrio (.mk p ind' w t pr cs' hs ps) pos
              let childIdx := if pos = lastIdx then newPos else lastIdx
              match n'.children.get? childIdx with
              | none => .error "runtime error: child index"
              | some child =>
                match insertChild (path.length + 1) child (path.drop i) method handler with
                | .error e => .error e
                | .ok child' => .ok (n'.setChildAt childIdx child')
          else
            insertChild (path.length + 1) n (path.drop i) method handler
    else
      -- both path and node path exhausted: install the handler (overwrites)
      match n with
      | .mk p ind w t pr cs hs ps =>
        .ok (.mk p ind w t pr cs (mapSet hs method handler) ps)

/-- addRoute from tree.go. -/
def addRoute (n : Node α) (path : List Char) (method : String) (handler : α) :
    Except String (Node α) :=
  let n := bumpPrio n
  if n.path.length = 0 ∧ n.children.length = 0 then
    match insertChild (path.length + 1) n path method handler with
    | .error e => .error e
    | .ok n' => .ok (n'.setNType .root)
  else
    addRouteWalk (size n + path.length + 1) n path method handler

end Node

/-- Result of node.getValue: Go returns `(handler, params)` where a nil
handler is a miss; `bad` models panics (including runtime panics). -/
inductive Lookup (α : Type) where
  | found (handler : α) (params : List (List Char × List Char))
  | miss
  | bad (msg : String)
  deriving DecidableEq, Repr

/-- The param-end scan of getValue: bytes up to the next '/' or end. -/
def countParamEnd : List Char → Nat
  | [] => 0
  | c :: rest => if c = '/' then 0 else countParamEnd rest + 1

namespace Node

variable {α : Type}

/-- getValue from tree.go (the `walk` loop; each iteration descends). -/
def getValueAux : Nat → Node α → List Char → String → List (List Char × List Char) → Lookup α
  | 0, _, _, _, _ => .bad "getValue: out of fuel"
  | fuel + 1, n, path, method, ps =>
    let pref := n.path
    if pref.length < path.length then
      if path.take pref.length = pref then
        let path := path.drop pref.length
        if !n.wildChild then
          -- look up the next child node by branching byte
          match path with
          | [] => .bad "runtime error: empty path"
          | c :: _ =>
            match listFindIdx n.indices c with
            | some j =>
              match n.children.get? j with
              | some child => getValueAux fuel child path method ps
              | none => .bad "runtime error: child index"
            | none => .miss
        else
          -- handle wildcard child
          match n.children.get? 0 with
          | none => .bad "runtime error: no wild child"
          | some child =>
            match child.nType with
            | .param =>
              let e := countParamEnd path
              let ps :=
                if child.path.length > 0 then mapSet ps (child.path.drop 1) (path.take e)
                else ps
              if e < path.length then
                -- more segments: go deeper if possible
                match child.children.get? 0 with
                | some gchild => getValueAux fuel gchild (path.drop e) method ps
                | none => .miss
              else
                match mapGet child.handlers method with
                | some h => .found h ps
                | none =>
                  match child.children.get? 0 with
                  | none => .miss
                  | some gchild =>
                    match mapGet gchild.handlers method with
                    | some h => .found h ps
                    | none => .miss
            | .catchAll =>
              if child.path.length > 1 ∧ child.params.length = 0 then
                .bad "runtime error: params index"
              else
                let ps :=
                  if child.path.length > 1 then mapSet ps (child.params.getD 0 []) path
                  else ps
                match mapGet child.handlers method with
                | some h => .found h ps
                | none => .miss
            | _ => .bad "invalid node type"
      else .miss
    else
      if path = pref then
        match mapGet n.handlers method with
        | some h => .found h ps
        | none => .miss
      else .miss

/-- getValue from tree.go: walk the tree from `n`. -/
def getValue (n : Node α) (path : List Char) (method : String) : Lookup α :=
  getValueAux (size n + 1) n path method []

end Node

/-- Router.addRoute from router.go: requires a leading '/' (an empty path
would be a runtime index panic in Go, also modelled as an error), and creates
the tree root for the method on first use. -/
def routerAddRoute {α : Type} (trees : List (String × Node α)) (method : String)
    (path : List Char) (handler : α) : Except String (List (String × Node α)) :=
  if path.get? 0 ≠ some '/' then .error "path must begin with '/'"
  else
    let root := (mapGet trees method).getD Node.empty
    match root.addRoute path method handler with
    | .error e => .error e
    | .ok root' => .ok (mapSet trees method root')

/-! ## Router dispatch (router.go) -/

/-- The Router fields that ServeHTTP reads (router.go). -/
structure Router (α : Type) where
  trees : List (String × Node α)
  middleware : List α
  notFound : Option α
  methodNotAllowed : Option α
  handleOPTIONS : Bool

/-- What ServeHTTP does once matching is decided: drive a handler chain on
the pooled context, send the automatic OPTIONS reply, or write a plain error
(http.Error / http.NotFound). -/
inductive Outcome (α : Type) where
  | dispatch (chain : List α) (ps : List (List Char × List Char))
  | autoOptions (allowed : List String)
  | plainError (status : Nat) (msg : String)

/-- The allowed-methods collection of Router.handleOPTIONS. -/
def allowedMethods {α : Type} (trees : List (String × Node α)) (path : List Char) :
    List String :=
  (trees.filter (fun p =>
    match Node.getValue p.2 path p.1 with
    | .found _ _ => true
    | _ => false)).map Prod.fst

/-- The method-not-allowed probe of ServeHTTP: some tree of a different
method resolves the path to a handler. -/
def hasOtherMethodHandler {α : Type} (trees : List (String × Node α)) (method : String)
    (path : List Char) : Bool :=
  trees.any (fun p =>
    p.1 != method &&
      match Node.getValue p.2 path p.1 with
      | .found _ _ => true
      | _ => false)

/-- The tree consultation of ServeHTTP: the tree for the request method, if
any, queried for the request path. -/
def matchedHandler {α : Type} (trees : List (String × Node α)) (method : String)
    (path : List Char) : Option (α × List (List Char × List Char)) :=
  match mapGet trees method with
  | some root =>
    match Node.getValue root path method with
    | .found h ps => some (h, ps)
    | _ => none
  | none => none

/-- ServeHTTP from router.go, reduced to its dispatch decision. -/
def serveHTTP {α : Type} (r : Router α) (method : String) (path : List Char) : Outcome α :=
  match matchedHandler r.trees method path with
  | some (h, ps) => .dispatch (r.middleware ++ [h]) ps
  | none =>
    if method = "OPTIONS" ∧ r.handleOPTIONS then
      .autoOptions (allowedMethods r.trees path)
    else if hasOtherMethodHandler r.trees method path then
      match r.methodNotAllowed with
      | some h => .dispatch [h] []
      | none => .plainError 405 "Method Not Allowed"
    else
      match r.notFound with
      | some h => .dispatch [h] []
      | none => .plainError 404 "404 page not found"

/-! ## Handler chains, groups and the context cursor
(context.go, group.go, middleware semantics) -/

/-- The handler-body language: what a handler may do with the context.
`emit` records an observable event (witnessing invocation order), `next` and
`abort` are Context.Next / Context.Abort, and `runGroup` is the closure that
RouterGroup.handle bakes around a route handler: it captures the group
reference `gid` and the route handler body, and reads the group store when
invoked. -/
inductive Act where
  | next
  | abort
  | emit (n : Nat)
  | runGroup (gid : Nat) (body : List Act)

/-- RouterGroup (group.go): prefix, optional parent, own middleware list.
Groups live in a store indexed by creation order, mirroring the Go heap;
the router back-pointer is implicit. -/
structure GroupRec where
  pfx : List Char
  parent : Option Nat
  middleware : List (List Act)

/-- RouterGroup.combineMiddleware: parent's combined middleware first, own
appended.  Fuel bounds the parent chain (parents precede children in the
store, so the store length suffices). -/
def combineMiddlewareAux : Nat → List GroupRec → Nat → List (List Act)
  | 0, _, _ => []
  | fuel + 1, store, gid =>
    match store.get? gid with
    | none => []
    | some g =>
      match g.parent with
      | some p => combineMiddlewareAux fuel store p ++ g.middleware
      | none => g.middleware

def combineMiddleware (store : List GroupRec) (gid : Nat) : List (List Act) :=
  combineMiddlewareAux (store.length + 1) store gid

/-- Router.Group: a top-level group with no parent. -/
def routerGroup (store : List GroupRec) (pfx : List Char) (mw : List (List Act)) :
    List GroupRec × Nat :=
  (store ++ [⟨pfx, none, mw⟩], store.length)

/-- RouterGroup.Group: nested group; prefixes concatenate and the parent's
combined middleware is prepended to the new group's own list at creation. -/
def groupGroup (store : List GroupRec) (gid : Nat) (pfx : List Char)
    (mw : List (List Act)) : List GroupRec × Nat :=
  let parentPfx := match store.get? gid with | some g => g.pfx | none => []
  (store ++ [⟨parentPfx ++ pfx, some gid, combineMiddleware store gid ++ mw⟩], store.length)

/-- RouterGroup.Use: append to the group's own middleware list (mutating the
group record in the store). -/
def groupUse (store : List GroupRec) (gid : Nat) (mw : List (List Act)) : List GroupRec :=
  match store.get? gid with
  | none => store
  | some g => store.set gid ⟨g.pfx, g.parent, g.middleware ++ mw⟩

/-- RouterGroup.handle: the handler registered into the tree is a closure
capturing the group reference and the route handler body. -/
def groupHandle (gid : Nat) (body : List Act) : List Act :=
  [Act.runGroup gid body]

/-- Per-request context state that chain execution reads and writes: the
handler chain, the cursor (a Go int starting at -1), the trace of emitted
events, and a flag that is cleared if interpretation fuel runs out. -/
structure CState where
  handlers : List (List Act)
  index : Int
  trace : List Nat
  ok : Bool

/-- Which piece of the chain machinery is executing: a handler body
(Context's view of a HandlerFunc), the entry of Context.Next, or the
`for c.index < len(c.handlers)` loop inside it. -/
inductive Task where
  | acts (acts : List Act)
  | nextStep
  | loop

/-- The chain interpreter (Context.Next plus handler bodies), structurally
recursive on fuel so that concrete runs reduce in the kernel.  Fuel is a
modelling artifact: each step consumes one unit, and `ok` is cleared if it
ever runs out. -/
def interp : Nat → List GroupRec → Task → CState → CState
  | 0, _, _, st => { st with ok := false }
  | fuel + 1, store, t, st =>
    match t with
    | .acts [] => st
    | .acts (a :: rest) =>
      let st' :=
        match a with
        | .emit n => { st with trace := st.trace ++ [n] }
        | .abort => { st with index := (st.handlers.length : Int) }
        | .next => interp fuel store .nextStep st
        | .runGroup gid body =>
          -- RouterGroup.handle's closure: save chain and cursor, install the
          -- group middleware followed by the handler, drive it, then restore
          let savedHandlers := st.handlers
          let savedIndex := st.index
          let gmw := combineMiddleware store gid
          let st1 := interp fuel store .nextStep
            { st with handlers := gmw ++ [body], index := -1 }
          { st1 with handlers := savedHandlers, index := savedIndex }
      interp fuel store (.acts rest) st'
    | .nextStep => interp fuel store .loop { st with index := st.index + 1 }
    | .loop =>
      if st.index < (st.handlers.length : Int) then
        let body := st.handlers.getD st.index.toNat []
        let st' := interp fuel store (.acts body) st
        interp fuel store .loop { st' with index := st'.index + 1 }
      else st

/-- Run a handler body (sequence of actions) on the context. -/
def runActs (fuel : Nat) (store : List GroupRec) (acts : List Act) (st : CState) : CState :=
  interp fuel store (.acts acts) st

/-- Context.Next: advance the cursor, then drive the loop. -/
def runNext (fuel : Nat) (store : List GroupRec) (st : CState) : CState :=
  interp fuel store .nextStep st

/-- Drive a handler chain the way ServeHTTP does: cursor -1, then Next. -/
def serveChainF (fuel : Nat) (store : List GroupRec) (chain : List (List Act)) : CState :=
  runNext fuel store { handlers := chain, index := -1, trace := [], ok := true }

/-- serveChainF with ample fuel for the concrete scenarios in this file. -/
def serveChain (store : List GroupRec) (chain : List (List Act)) : CState :=
  serveChainF 1000 store chain

/-- Context.Param (context.go): a read of the Params map; a missing key
yields the Go zero value, the empty string. -/
def contextParam (ps : List (List Char × List Char)) (key : List Char) : List Char :=
  (mapGet ps key).getD []

/-- The canonical middleware body: emit `i`, call next, emit `i + 100`
(pre-work, next, post-work). -/
def mwBody (i : Nat) : List Act :=
  [Act.emit i, Act.next, Act.emit (i + 100)]

/-- A plain handler body: emit `i` and return without calling next. -/
def hBody (i : Nat) : List Act :=
  [Act.emit i]

/-! ## Structural invariant of the tree (spec section 3) -/

/-- A path is wildcard-free (purely literal). -/
def staticPath (p : List Char) : Bool :=
  p.all (fun c => c ≠ ':' ∧ c ≠ '*')

namespace Node

variable {α : Type}

/-- Lock-step correspondence: `len(indices) == len(children)` and the i-th
child's first path byte equals `indices[i]`. -/
def childrenOk (ind : List Char) (cs : List (Node α)) : Bool :=
  match ind, cs with
  | [], [] => true
  | c :: ind', child :: cs' => child.path.get? 0 = some c && childrenOk ind' cs'
  | _, _ => false

/-- Children sorted by non-increasing priority. -/
def sortedByPrio : List (Node α) → Bool
  | [] => true
  | [_] => true
  | a :: b :: rest => b.priority ≤ a.priority && sortedByPrio (b :: rest)

mutual

/-- The node invariant claimed in spec section 3 / section 8, at every node:
`len(indices) == len(children)`, `children[i].path[0] == indices[i]`, and
children in non-increasing priority order (indices permuted in lock-step). -/
def invariantHolds : Node α → Bool
  | .mk _ ind _ _ _ cs _ _ => childrenOk ind cs && sortedByPrio cs && invariantAll cs

def invariantAll : List (Node α) → Bool
  | [] => true
  | c :: cs => invariantHolds c && invariantAll cs

end

mutual

/-- Well-formedness of a tree built from wildcard-free registrations: no
wildcard children, sibling first bytes distinct and in lock-step with
`indices`, children in non-increasing priority order, every child with a
positive priority (each route through it bumped it at least once) and a
wildcard-free edge label. -/
def wfS : Node α → Prop
  | .mk _ ind w _ _ cs _ _ =>
    w = false ∧ ind.Nodup ∧
      List.Forall₂ (fun c child => child.path.head? = some c) ind cs ∧
      sortedByPrio cs = true ∧ wfSAll cs

def wfSAll : List (Node α) → Prop
  | [] => True
  | c :: cs => (1 ≤ c.priority ∧ staticPath c.path = true ∧ wfS c) ∧ wfSAll cs

end

end Node

/-- Fold a list of registrations (path, method, handler) into a tree, Go's
registration phase: stop at the first fatal failure. -/
def regList {α : Type} (t : Node α) : List (List Char × String × α) → Except String (Node α)
  | [] => .ok t
  | (p, m, h) :: rs =>
    match Node.addRoute t p m h with
    | .error e => .error e
    | .ok t' => regList t' rs

/-- The route table a registration sequence denotes: the most recent handler
for each (path, method) pair. -/
def specMap {α : Type} (rs : List (List Char × String × α)) :
    List ((List Char × String) × α) :=
  rs.foldl (fun acc r => mapSet acc (r.1, r.2.1) r.2.2) []

/-- The child dispatch shared by getValue and addRoute: the child at the
position of the first indices byte equal to `c`. -/
def childFor {α : Type} (ind : List Char) (cs : List (Node α)) (c : Char) :
    Option (Node α) :=
  match listFindIdx ind c with
  | some j => cs[j]?
  | none => none

/-- First-match lookup over (byte, child) pairs; the associative view of
`childFor` used in proofs. -/
def pairFirst {α : Type} : List (Char × Node α) → Char → Option (Node α)
  | [], _ => none
  | (c', x) :: rest, c => if c' = c then some x else pairFirst rest c

/-- The take/drop rearrangement performed by incrementChildPrio: the element
at position `k` moves to position `k'`, positions `k'..k-1` shift right. -/
def surgery {β : Type} (newPos pos : Nat) (l : List β) : List β :=
  l.take newPos ++ (l.drop pos).take 1 ++ (l.drop newPos).take (pos - newPos) ++
    l.drop (pos + 1)

/-- The accumulated state of a method tree across static registrations: the
shape addRoute maintains at the root. -/
def rootOk {α : Type} (t : Node α) : Prop :=
  Node.wfS t ∧ staticPath t.path = true ∧ t.path.head? = some '/' ∧ 1 ≤ t.priority

/-- A method tree is either still unused or a well-formed populated root. -/
def rootState {α : Type} (t : Node α) : Prop :=
  t = Node.empty ∨ rootOk t

/-! ## Concrete scenario definitions used by the claim theorems -/

/-- Project the tree out of a successful addRoute. -/
def okD {α : Type} (e : Except String (Node α)) : Node α :=
  match e with
  | .ok n => n
  | .error _ => Node.empty

/-- Did the registration complete (no fatal failure)? -/
def regOk {α : Type} (e : Except String (Node α)) : Bool :=
  match e with
  | .ok _ => true
  | .error _ => false

/-- Tree with the single static route GET /x ↦ 1. -/
def treeX : Node Nat := okD (Node.addRoute Node.empty "/x".toList "GET" 1)

/-- Tree with GET /a/b ↦ 1 (for the wildcard-after-literal conflict). -/
def treeAB : Node Nat := okD (Node.addRoute Node.empty "/a/b".toList "GET" 1)

/-- Tree with GET /a/:x ↦ 1 (for the literal-after-wildcard direction). -/
def treeAParam : Node Nat := okD (Node.addRoute Node.empty "/a/:x".toList "GET" 1)

/-- treeAParam after additionally registering GET /a/b ↦ 2 (succeeds!). -/
def treeAParamB : Node Nat := okD (Node.addRoute treeAParam "/a/b".toList "GET" 2)

/-- Tree with the catch-all route GET /files/*filepath ↦ 7. -/
def treeFiles : Node Nat := okD (Node.addRoute Node.empty "/files/*filepath".toList "GET" 7)

/-- A node with one (empty) child, for insertChild conflict witnesses. -/
def nodeWithChild : Node Nat := Node.mk [] [] false .static 1 [Node.empty] [] []

/-- Method trees with GET /x ↦ 1 and POST /x ↦ 2 (fallback scenarios). -/
def treesXY : List (String × Node Nat) :=
  match routerAddRoute [] "GET" "/x".toList 1 with
  | .ok t =>
    match routerAddRoute t "POST" "/x".toList 2 with
    | .ok t' => t'
    | .error _ => []
  | .error _ => []

/-- Group store: G1 = router.Group("/api", mw 1). -/
def storeG1 : List GroupRec × Nat := routerGroup [] "/api".toList [mwBody 1]

/-- Group store: G2 = G1.Group("/v1", mw 2). -/
def storeG2 : List GroupRec × Nat := groupGroup storeG1.1 storeG1.2 "/v1".toList [mwBody 2]

/-- The closure RouterGroup.handle registers for a route under G2. -/
def closureG2 : List Act := groupHandle storeG2.2 (hBody 9)

/-- Group store: G = router.Group("/g") with no middleware. -/
def storeG : List GroupRec × Nat := routerGroup [] "/g".toList []

/-- The closure registered for a route under G (before any Use). -/
def closureG : List Act := groupHandle storeG.2 (hBody 9)

/-- The store after G.Use(mw 5), called after the route was registered. -/
def storeGAfterUse : List GroupRec := groupUse storeG.1 storeG.2 [mwBody 5]

/-! # Theorems -/

/-- C1, counterexample: a second addRoute with the same method and path does
not abort - both registrations of GET /x complete without error. -/
theorem duplicate_route_registration_completes :
    regOk (Node.addRoute Node.empty ("/x".toList) "GET" 1) = true ∧
    regOk (Node.addRoute treeX ("/x".toList) "GET" 2) = true :=
  ⟨rfl, rfl⟩

/-- C1, amended: for the static path /x, a second addRoute with the same
method completes and silently replaces the handler - the tree keeps a single
/x node whose handler map binds the later handler, and lookup returns it. -/
theorem duplicate_route_overwrites_handler (h1 h2 : Nat) :
    Node.addRoute (okD (Node.addRoute Node.empty ("/x".toList) "GET" h1))
        ("/x".toList) "GET" h2 =
      .ok (Node.mk ("/x".toList) [] false .root 2 [] [("GET", h2)] []) ∧
    Node.getValue (okD (Node.addRoute (okD (Node.addRoute Node.empty ("/x".toList) "GET" h1))
        ("/x".toList) "GET" h2)) ("/x".toList) "GET" = .found h2 [] :=
  ⟨rfl, rfl⟩

/-- C2, counterexample: the handler at index 0 returns without calling next()
and without calling abort(), yet the handler at index 1 still runs: the
driving loop in Context.Next continues the chain (trace is [0, 1]). -/
theorem handler_without_next_does_not_stop_chain :
    (serveChain [] [[Act.emit 0], [Act.emit 1]]).trace = [0, 1] :=
  rfl

/-- C3, counterexample: GET /a/:x ↦ 1 and then GET /a/b ↦ 2 both register
without error, yet lookup of ("/a/b", GET) does not return the registered
handler 2 with no parameters - it returns the wildcard's handler 1 and
captures x = "b" (the literal route is shadowed). -/
theorem lookup_after_mixed_registration_wrong_handler :
    regOk (Node.addRoute Node.empty ("/a/:x".toList) "GET" 1) = true ∧
    regOk (Node.addRoute treeAParam ("/a/b".toList) "GET" 2) = true ∧
    Node.getValue treeAParamB ("/a/b".toList) "GET" ≠ .found 2 [] ∧
    Node.getValue treeAParamB ("/a/b".toList) "GET" = .found 1 [(['x'], ['b'])] :=
  ⟨rfl, rfl, by decide, rfl⟩

/-- C4 (code bug): with router middleware 0, group G1 carrying middleware 1,
nested group G2 = G1.Group carrying middleware 2, and route handler 9 under
G2, dispatch runs G1's middleware twice in each direction (pre-next trace
0, 1, 1, 2 and post-next 102, 101, 101, 100) instead of exactly once:
RouterGroup.Group copies the parent's combined middleware into the child and
combineMiddleware walks parents again at dispatch. -/
theorem nested_group_runs_parent_middleware_twice :
    (serveChain storeG2.1 [mwBody 0, closureG2]).trace =
      [0, 1, 1, 2, 9, 102, 101, 101, 100] :=
  rfl

/-- C5, counterexample: registering the literal segment b at a position where
the wildcard child :x already exists does not fail fatally - the registration
completes. -/
theorem literal_after_wildcard_registration_completes :
    regOk (Node.addRoute Node.empty ("/a/:x".toList) "GET" 1) = true ∧
    regOk (Node.addRoute treeAParam ("/a/b".toList) "GET" 2) = true :=
  ⟨rfl, rfl⟩

/-- C6, counterexample: the successful registration sequence GET /a/:x then
GET /a/b produces a node with len(indices) = 1 but len(children) = 2, so the
claimed structural invariant fails on a tree built purely from successful
registrations. -/
theorem mixed_registration_breaks_node_invariant :
    regOk (Node.addRoute Node.empty ("/a/:x".toList) "GET" 1) = true ∧
    regOk (Node.addRoute treeAParam ("/a/b".toList) "GET" 2) = true ∧
    Node.invariantHolds treeAParamB = false :=
  ⟨rfl, rfl, rfl⟩

/-- C9, counterexample: a route is registered under group G while G has no
middleware; G.Use(middleware 5) is called after the registration; dispatching
the route then runs middleware 5 (trace 5, 9, 105), because the baked closure
re-reads the group's middleware at dispatch time. -/
theorem use_after_registration_middleware_runs :
    (serveChain storeG.1 [closureG]).trace = [9] ∧
    (serveChain storeGAfterUse [closureG]).trace = [5, 9, 105] :=
  ⟨rfl, rfl⟩

/-- C5, amended: the conflict check is asymmetric.  Inserting a path whose
next segment is a wildcard at a node that already has any child fails
fatally (universally - one of insertChild's three leading checks fires);
the concrete instance GET /a/b then GET /a/:x fails with "wildcard segment
conflicts with existing children".  Conversely GET /a/:x then GET /a/b
completes, and the literal route is shadowed by the wildcard at lookup. -/
theorem wildcard_conflict_asymmetry :
    (∀ (fuel : Nat) (n : Node Nat) (p : List Char) (m : String) (h : Nat),
      p.get? 0 = some ':' ∨ p.get? 0 = some '*' → n.children ≠ [] →
      regOk (Node.insertChild (fuel + 1) n p m h) = false) ∧
    Node.addRoute treeAB ("/a/:x".toList) "GET" 2 =
      .error "wildcard segment conflicts with existing children" ∧
    regOk (Node.addRoute treeAParam ("/a/b".toList) "GET" 2) = true ∧
    Node.getValue treeAParamB ("/a/b".toList) "GET" = .found 1 [(['x'], ['b'])] := by
  refine ⟨?_, rfl, rfl, rfl⟩
  intro fuel n p m h hw hc
  match p with
  | [] => simp at hw
  | c :: rest =>
    have hcw : c = ':' ∨ c = '*' := by simpa using hw
    have hfw : findWildcard (c :: rest) =
        some (c :: (wcScan rest true).1, 0, (wcScan rest true).2) := by
      rcases hcw with rfl | rfl <;> simp [findWildcard]
    have hlen : n.children.length > 0 := List.length_pos.mpr hc
    simp only [Node.insertChild, hfw]
    split_ifs <;> simp_all [regOk]

/-- C5 witness: the universal half applied at a node with one child and the
path ":x"; the registration fails. -/
theorem wildcard_conflict_asymmetry_witness :
    regOk (Node.insertChild 3 nodeWithChild (":x".toList) "GET" 5) = false :=
  wildcard_conflict_asymmetry.1 2 nodeWithChild (":x".toList) "GET" 5 (by decide)
    (by show ([Node.empty] : List (Node Nat)) ≠ []; exact List.cons_ne_nil _ _)

/-- C7: on the tree with GET /files/*filepath registered, looking up
/files followed by '/' and any remainder returns the catch-all's handler and
captures the entire remaining path, leading '/' included, under filepath. -/
theorem catchall_captures_remaining_path (s : List Char) :
    Node.getValue treeFiles ("/files".toList ++ '/' :: s) "GET" =
      .found 7 [("filepath".toList, '/' :: s)] := by
  show Node.getValueAux 4 treeFiles ("/files".toList ++ '/' :: s) "GET" [] = _
  have ht : treeFiles = Node.mk ("/files".toList) ['/'] false .root 1
      [Node.mk [] [] true .catchAll 1
        [Node.mk ("/*filepath".toList) [] false .catchAll 1 [] [("GET", 7)]
          ["filepath".toList]] [] []] [] [] := rfl
  rw [ht]
  simp only [Node.getValueAux]
  simp [Node.path, Node.indices, Node.wildChild, Node.children, Node.nType, Node.handlers,
    Node.params, List.length_append, mapGet, mapSet, listFindIdx]

/-- C7 witness: the spec's concrete scenario, GET /files/a/b/c.txt yields
handler 7 with filepath = "/a/b/c.txt". -/
theorem catchall_captures_remaining_path_witness :
    Node.getValue treeFiles ("/files/a/b/c.txt".toList) "GET" =
      .found 7 [("filepath".toList, "/a/b/c.txt".toList)] :=
  catchall_captures_remaining_path ("a/b/c.txt".toList)

/-- C8: whenever the request's own method tree yields no handler and the
automatic OPTIONS branch does not take the request, dispatch invokes the
method-not-allowed hook (plain 405 when unset) if some other method's tree
resolves the path, and otherwise the not-found hook (plain 404 when unset). -/
theorem fallback_policy_405_then_404 {α : Type} (r : Router α) (method : String)
    (path : List Char)
    (hmiss : matchedHandler r.trees method path = none)
    (hopt : ¬(method = "OPTIONS" ∧ r.handleOPTIONS = true)) :
    serveHTTP r method path =
      if hasOtherMethodHandler r.trees method path then
        match r.methodNotAllowed with
        | some h => Outcome.dispatch [h] []
        | none => Outcome.plainError 405 "Method Not Allowed"
      else
        match r.notFound with
        | some h => Outcome.dispatch [h] []
        | none => Outcome.plainError 404 "404 page not found" := by
  unfold serveHTTP
  rw [hmiss]
  simp only [if_neg hopt]

/-- C8 witness: with GET /x and POST /x registered and no hooks set,
PUT /x gives the plain 405 and PUT /zzz the plain 404. -/
theorem fallback_policy_405_then_404_witness :
    serveHTTP (⟨treesXY, [], none, none, true⟩ : Router Nat) "PUT" ("/x".toList) =
        .plainError 405 "Method Not Allowed" ∧
    serveHTTP (⟨treesXY, [], none, none, true⟩ : Router Nat) "PUT" ("/zzz".toList) =
        .plainError 404 "404 page not found" := by
  have h1 := fallback_policy_405_then_404 (⟨treesXY, [], none, none, true⟩ : Router Nat)
    "PUT" ("/x".toList) rfl (by decide)
  have h2 := fallback_policy_405_then_404 (⟨treesXY, [], none, none, true⟩ : Router Nat)
    "PUT" ("/zzz".toList) rfl (by decide)
  rw [h1, h2]
  exact ⟨rfl, rfl⟩

/-- C10: Context.Param on the parameter map of a matched route returns the
empty string for every name that was not captured by the match; the map read
is total and never fails. -/
theorem param_of_unknown_name_is_empty {α : Type} (t : Node α) (p : List Char) (m : String)
    (h : α) (ps : List (List Char × List Char)) (name : List Char)
    (_hm : Node.getValue t p m = .found h ps) (hn : name ∉ ps.map Prod.fst) :
    contextParam ps name = [] := by
  have hg : mapGet ps name = none := by
    clear _hm
    induction ps with
    | nil => rfl
    | cons q rest ih =>
      simp only [List.map_cons, List.mem_cons, not_or] at hn
      simp only [mapGet]
      rw [if_neg (fun e => hn.1 e.symm), ih hn.2]
  simp [contextParam, hg]

/-- C10 witness: on the matched catch-all route, Param("nope") = "". -/
theorem param_of_unknown_name_is_empty_witness :
    contextParam [("filepath".toList, "/a/b/c.txt".toList)] ("nope".toList) = [] :=
  param_of_unknown_name_is_empty treeFiles ("/files/a/b/c.txt".toList) "GET" 7
    [("filepath".toList, "/a/b/c.txt".toList)] ("nope".toList)
    catchall_captures_remaining_path_witness (by decide)

theorem interp_acts_nil (f : Nat) (S : List GroupRec) (st : CState) :
    interp (f + 1) S (.acts []) st = st := rfl

theorem interp_acts_emit (f : Nat) (S : List GroupRec) (i : Nat) (rest : List Act)
    (st : CState) :
    interp (f + 1) S (.acts (Act.emit i :: rest)) st =
      interp f S (.acts rest) { st with trace := st.trace ++ [i] } := rfl

theorem interp_acts_next (f : Nat) (S : List GroupRec) (rest : List Act) (st : CState) :
    interp (f + 1) S (.acts (Act.next :: rest)) st =
      interp f S (.acts rest) (interp f S .nextStep st) := rfl

theorem interp_next (f : Nat) (S : List GroupRec) (st : CState) :
    interp (f + 1) S .nextStep st = interp f S .loop { st with index := st.index + 1 } := rfl

theorem interp_loop_enter (f : Nat) (S : List GroupRec) (st : CState)
    (h : st.index < (st.handlers.length : Int)) :
    interp (f + 1) S .loop st =
      interp f S .loop
        { interp f S (.acts (st.handlers.getD st.index.toNat [])) st with
          index := (interp f S (.acts (st.handlers.getD st.index.toNat [])) st).index + 1 } := by
  simp only [interp]
  rw [if_pos h]

theorem interp_loop_exit (f : Nat) (S : List GroupRec) (st : CState)
    (h : ¬ st.index < (st.handlers.length : Int)) :
    interp (f + 1) S .loop st = st := by
  simp only [interp]
  rw [if_neg h]

theorem loop_plain (S : List GroupRec) (ids : List Nat) :
    ∀ (f : Nat) (st : CState) (p : Nat),
      st.handlers.drop p = ids.map hBody →
      st.index = (p : Int) →
      p ≤ st.handlers.length →
      interp (f + 3 * ids.length + 1) S .loop st =
        { st with index := (st.handlers.length : Int), trace := st.trace ++ ids } := by
  induction ids with
  | nil =>
    intro f st p hdrop hidx hple
    have hlen : st.handlers.length ≤ p := by
      have h0 := congrArg List.length hdrop
      simp [List.length_drop] at h0
      omega
    have hp : p = st.handlers.length := le_antisymm hlen hple |>.symm
    rw [show f + 3 * ([] : List Nat).length + 1 = f + 1 by simp]
    rw [interp_loop_exit f S st (by rw [hidx, hp]; omega)]
    rw [← hp, ← hidx]
    simp
  | cons i rest ih =>
    intro f st p hdrop hidx hple
    have hplt : p < st.handlers.length := by
      have h0 := congrArg List.length hdrop
      simp [List.length_drop] at h0
      omega
    have hbody : st.handlers.getD st.index.toNat [] = hBody i := by
      rw [hidx]
      simp only [Int.toNat_ofNat]
      have h1 : st.handlers[p]? = some (hBody i) := by
        have h2 : (st.handlers.drop p)[0]? = some (hBody i) := by
          rw [hdrop]; simp
        rwa [List.getElem?_drop, Nat.add_zero] at h2
      simp [List.getD, h1]
    rw [show f + 3 * (i :: rest).length + 1 = (f + 3 * rest.length + 3) + 1 by
      simp [List.length_cons]; ring]
    rw [interp_loop_enter _ S st (by rw [hidx]; exact_mod_cast hplt)]
    rw [hbody]
    simp only [hBody]
    rw [show f + 3 * rest.length + 3 = (f + 3 * rest.length + 2) + 1 from rfl]
    rw [interp_acts_emit]
    rw [show f + 3 * rest.length + 2 = (f + 3 * rest.length + 1) + 1 from rfl]
    rw [interp_acts_nil]
    have hdrop' : st.handlers.drop (p + 1) = rest.map hBody := by
      have h3 := congrArg (List.drop 1) hdrop
      rw [List.drop_drop] at h3
      simpa using h3
    have hidx' : st.index + 1 = ((p + 1 : Nat) : Int) := by
      rw [hidx]; push_cast; ring
    have hple' : p + 1 ≤ st.handlers.length := by omega
    rw [show f + 3 * rest.length + 1 + 1 + 1 = f + 2 + 3 * rest.length + 1 by ring]
    show interp (f + 2 + 3 * rest.length + 1) S Task.loop
      ⟨st.handlers, st.index + 1, st.trace ++ [i], st.ok⟩ = _
    rw [ih (f + 2) ⟨st.handlers, st.index + 1, st.trace ++ [i], st.ok⟩ (p + 1) hdrop' hidx'
      hple']
    simp

/-- C2, amended: a handler that returns without calling next() or abort()
does not terminate the chain: for every chain of such plain handlers, the
Next loop invokes every handler exactly once, in order (the trace is the
full id list).  Fuel is a modelling artifact; any sufficient amount gives
the same run. -/
theorem plain_chain_runs_all_handlers (ids : List Nat) (fuel : Nat)
    (hf : 3 * ids.length + 2 ≤ fuel) :
    (serveChainF fuel [] (ids.map hBody)).trace = ids := by
  obtain ⟨f, rfl⟩ : ∃ f, fuel = (f + 3 * ids.length + 1) + 1 :=
    ⟨fuel - (3 * ids.length + 2), by omega⟩
  unfold serveChainF runNext
  rw [interp_next]
  show (interp (f + 3 * ids.length + 1) [] Task.loop
    ⟨ids.map hBody, 0, [], true⟩).trace = ids
  rw [loop_plain [] ids f ⟨ids.map hBody, 0, [], true⟩ 0 rfl (by simp) (Nat.zero_le _)]
  simp

theorem interp_acts_group (f : Nat) (S : List GroupRec) (g : Nat) (body : List Act)
    (rest : List Act) (st : CState) :
    interp (f + 1) S (.acts (Act.runGroup g body :: rest)) st =
      interp f S (.acts rest)
        { interp f S .nextStep
            { st with handlers := combineMiddleware S g ++ [body], index := -1 } with
          handlers := st.handlers, index := st.index } := rfl

theorem next_onion (S : List GroupRec) (hid : Nat) (ids : List Nat) :
    ∀ (f : Nat) (st : CState) (p : Nat),
      st.handlers.drop p = ids.map mwBody ++ [hBody hid] →
      st.index + 1 = (p : Int) →
      p ≤ st.handlers.length →
      interp (f + 4 * ids.length + 4) S .nextStep st =
        { st with index := ((st.handlers.length + ids.length : Nat) : Int),
                  trace := st.trace ++ ids ++ hid :: ids.reverse.map (· + 100) } := by
  induction ids with
  | nil =>
    intro f st p hdrop hidx hple
    have hlen : p + 1 = st.handlers.length := by
      have h0 := congrArg List.length hdrop
      simp [List.length_drop] at h0
      omega
    have hplt : p < st.handlers.length := by omega
    have h1 : st.handlers[p]? = some (hBody hid) := by
      have h2 : (st.handlers.drop p)[0]? = some (hBody hid) := by
        rw [hdrop]; simp
      rwa [List.getElem?_drop, Nat.add_zero] at h2
    rw [show f + 4 * ([] : List Nat).length + 4 = (f + 3) + 1 by simp]
    rw [interp_next]
    rw [interp_loop_enter (f + 2) S _ (by show st.index + 1 < _; rw [hidx]; exact_mod_cast hplt)]
    have hbody : ({ st with index := st.index + 1 } : CState).handlers.getD
        ({ st with index := st.index + 1 } : CState).index.toNat [] = hBody hid := by
      show st.handlers.getD (st.index + 1).toNat [] = hBody hid
      rw [hidx]
      simp [List.getD, h1]
    rw [hbody]
    simp only [hBody]
    rw [show f + 2 = (f + 1) + 1 from rfl, interp_acts_emit, interp_acts_nil]
    rw [interp_loop_exit (f + 1) S _ (by
      show ¬ st.index + 1 + 1 < (st.handlers.length : Int)
      rw [hidx]
      have hcast : ((p : Int) + 1) = ((st.handlers.length : Nat) : Int) := by
        rw [← hlen]; push_cast; ring
      omega)]
    show (⟨st.handlers, st.index + 1 + 1, st.trace ++ [hid], st.ok⟩ : CState) = _
    have hidx2 : st.index + 1 + 1 = ((st.handlers.length + 0 : Nat) : Int) := by
      rw [hidx, ← hlen]; push_cast; ring
    rw [hidx2]
    simp
  | cons i rest ih =>
    intro f st p hdrop hidx hple
    have hlen : st.handlers.length = p + rest.length + 2 := by
      have h0 := congrArg List.length hdrop
      simp [List.length_drop] at h0
      omega
    have hplt : p < st.handlers.length := by omega
    have h1 : st.handlers[p]? = some (mwBody i) := by
      have h2 : (st.handlers.drop p)[0]? = some (mwBody i) := by
        rw [hdrop]; simp
      rwa [List.getElem?_drop, Nat.add_zero] at h2
    rw [show f + 4 * (i :: rest).length + 4 = (f + 4 * rest.length + 7) + 1 by
      simp [List.length_cons]; ring]
    rw [interp_next]
    rw [interp_loop_enter (f + 4 * rest.length + 6) S _
      (by show st.index + 1 < _; rw [hidx]; exact_mod_cast hplt)]
    have hbody : ({ st with index := st.index + 1 } : CState).handlers.getD
        ({ st with index := st.index + 1 } : CState).index.toNat [] = mwBody i := by
      show st.handlers.getD (st.index + 1).toNat [] = mwBody i
      rw [hidx]
      simp [List.getD, h1]
    rw [hbody]
    simp only [mwBody]
    rw [show f + 4 * rest.length + 6 = (f + 4 * rest.length + 5) + 1 from rfl,
      interp_acts_emit]
    rw [show f + 4 * rest.length + 5 = (f + 4 * rest.length + 4) + 1 from rfl,
      interp_acts_next]
    have hdrop' : st.handlers.drop (p + 1) = rest.map mwBody ++ [hBody hid] := by
      have h3 := congrArg (List.drop 1) hdrop
      rw [List.drop_drop] at h3
      simpa using h3
    have hih := ih f (⟨st.handlers, st.index + 1, st.trace ++ [i], st.ok⟩ : CState) (p + 1)
      hdrop' (by show st.index + 1 + 1 = _; rw [hidx]; push_cast; ring)
      (by show p + 1 ≤ st.handlers.length; omega)
    rw [show (interp (f + 4 * rest.length + 4) S Task.nextStep
        { handlers := st.handlers, index := st.index + 1, trace := st.trace ++ [i],
          ok := st.ok }) = interp (f + 4 * rest.length + 4) S Task.nextStep
        (⟨st.handlers, st.index + 1, st.trace ++ [i], st.ok⟩ : CState) from rfl, hih]
    rw [show f + 4 * rest.length + 4 = (f + 4 * rest.length + 3) + 1 from rfl,
      interp_acts_emit]
    rw [show f + 4 * rest.length + 3 = (f + 4 * rest.length + 2) + 1 from rfl,
      interp_acts_nil]
    have hexit : ¬ ((st.handlers.length + rest.length : Nat) : Int) + 1 <
        ((st.handlers.length : Nat) : Int) := by push_cast; omega
    rw [interp_loop_exit (f + 4 * rest.length + 5) S _ hexit]
    show (⟨st.handlers, ((st.handlers.length + rest.length : Nat) : Int) + 1,
      ((st.trace ++ [i]) ++ rest ++ hid :: rest.reverse.map (· + 100)) ++ [i + 100],
      st.ok⟩ : CState) = _
    have hidx2 : ((st.handlers.length + rest.length : Nat) : Int) + 1 =
        ((st.handlers.length + (rest.length + 1) : Nat) : Int) := by push_cast; ring
    rw [hidx2]
    simp [List.reverse_cons, List.map_append, List.append_assoc]

/-- C9, amended: the group middleware chain is resolved at dispatch time.
Whatever the group store holds when the route is dispatched - including
middleware added by Use after the route was registered - is what runs: the
trace is the combined middleware (pre-next), the handler, then the combined
middleware reversed (post-next). -/
theorem group_middleware_resolved_at_dispatch (S : List GroupRec) (g hid : Nat)
    (ids : List Nat) (fuel : Nat)
    (hmw : combineMiddleware S g = ids.map mwBody)
    (hf : 4 * ids.length + 8 ≤ fuel) :
    (serveChainF fuel S [groupHandle g (hBody hid)]).trace =
      ids ++ hid :: ids.reverse.map (· + 100) := by
  obtain ⟨f, rfl⟩ : ∃ f, fuel = (f + 4 * ids.length + 7) + 1 :=
    ⟨fuel - (4 * ids.length + 8), by omega⟩
  unfold serveChainF runNext groupHandle
  rw [interp_next]
  rw [interp_loop_enter (f + 4 * ids.length + 6) S _ (by norm_num)]
  rw [show (⟨[[Act.runGroup g (hBody hid)]], -1 + 1, [], true⟩ : CState).handlers.getD
      (⟨[[Act.runGroup g (hBody hid)]], -1 + 1, [], true⟩ : CState).index.toNat []
      = [Act.runGroup g (hBody hid)] from rfl]
  rw [show f + 4 * ids.length + 6 = (f + 4 * ids.length + 5) + 1 from rfl,
    interp_acts_group]
  rw [hmw]
  have honion := next_onion S hid ids (f + 1)
    (⟨ids.map mwBody ++ [hBody hid], -1, [], true⟩ : CState) 0 rfl (by norm_num)
    (Nat.zero_le _)
  rw [show (f + 1) + 4 * ids.length + 4 = f + 4 * ids.length + 5 by ring] at honion
  rw [honion]
  simp only []
  rw [show f + 4 * ids.length + 5 = (f + 4 * ids.length + 4) + 1 from rfl, interp_acts_nil]
  rw [interp_loop_exit (f + 4 * ids.length + 4 + 1) S _ (by norm_num)]
  simp


/-- C2 witness: a three-handler plain chain runs all three. -/
theorem plain_chain_runs_all_handlers_witness :
    (serveChainF 50 [] ([3, 4, 5].map hBody)).trace = [3, 4, 5] :=
  plain_chain_runs_all_handlers [3, 4, 5] 50 (by norm_num)

/-- C9 witness: dispatching the route registered before G.Use(mw 5) runs
middleware 5 around handler 9. -/
theorem group_middleware_resolved_at_dispatch_witness :
    (serveChainF 1000 storeGAfterUse [groupHandle 0 (hBody 9)]).trace =
      [5] ++ 9 :: ([5].reverse.map (· + 100)) :=
  group_middleware_resolved_at_dispatch storeGAfterUse 0 9 [5] 1000 rfl (by norm_num)

/-! ## Static-tree correctness development (C3, C6) -/

theorem lcp_le_left : ∀ (a b : List Char), longestCommonPrefix a b ≤ a.length := by
  intro a
  induction a with
  | nil => intro b; cases b <;> simp [longestCommonPrefix]
  | cons x a ih =>
    intro b
    cases b with
    | nil => simp [longestCommonPrefix]
    | cons y b =>
      simp only [longestCommonPrefix]
      split_ifs
      · simpa using ih b
      · simp

theorem lcp_le_right : ∀ (a b : List Char), longestCommonPrefix a b ≤ b.length := by
  intro a
  induction a with
  | nil => intro b; cases b <;> simp [longestCommonPrefix]
  | cons x a ih =>
    intro b
    cases b with
    | nil => simp [longestCommonPrefix]
    | cons y b =>
      simp only [longestCommonPrefix]
      split_ifs
      · simpa using ih b
      · simp

theorem lcp_take : ∀ (a b : List Char),
    a.take (longestCommonPrefix a b) = b.take (longestCommonPrefix a b) := by
  intro a
  induction a with
  | nil => intro b; cases b <;> simp [longestCommonPrefix]
  | cons x a ih =>
    intro b
    cases b with
    | nil => simp [longestCommonPrefix]
    | cons y b =>
      simp only [longestCommonPrefix]
      split_ifs with hxy
      · subst hxy; simp [List.take_succ_cons, ih b]
      · simp

theorem lcp_ne : ∀ (a b : List Char),
    longestCommonPrefix a b < a.length → longestCommonPrefix a b < b.length →
    a.get? (longestCommonPrefix a b) ≠ b.get? (longestCommonPrefix a b) := by
  intro a
  induction a with
  | nil => intro b h1 _; simp [longestCommonPrefix] at h1
  | cons x a ih =>
    intro b h1 h2
    cases b with
    | nil => simp [longestCommonPrefix] at h2
    | cons y b =>
      simp only [longestCommonPrefix] at h1 h2 ⊢
      split_ifs with hxy
      · rw [if_pos hxy] at h1 h2
        simp only [List.length_cons] at h1 h2
        simpa using ih b (by omega) (by omega)
      · simp [hxy]

theorem findWildcard_static : ∀ (p : List Char), staticPath p = true →
    findWildcard p = none := by
  intro p
  induction p with
  | nil => intro _; rfl
  | cons c rest ih =>
    intro h
    simp [staticPath] at h
    simp only [findWildcard]
    rw [if_pos (by exact ⟨h.1.1, h.1.2⟩),
      ih (by simp [staticPath]; exact fun a ha => h.2 a ha)]

theorem size_pos {α : Type} (n : Node α) : 1 ≤ Node.size n := by
  cases n
  simp [Node.size]

theorem size_le_sizeList {α : Type} : ∀ (cs : List (Node α)) (c : Node α), c ∈ cs →
    Node.size c ≤ Node.sizeList cs := by
  intro cs
  induction cs with
  | nil => intro c h; simp at h
  | cons d cs ih =>
    intro c h
    simp only [Node.sizeList]
    rcases List.mem_cons.mp h with rfl | h
    · omega
    · have := ih c h; omega

theorem size_child_lt {α : Type} (n : Node α) (c : Node α) (h : c ∈ n.children) :
    Node.size c < Node.size n := by
  cases n with
  | mk p ind w t pr cs hs ps =>
    simp only [Node.children] at h
    have := size_le_sizeList cs c h
    simp only [Node.size]
    omega

end Aqylly

namespace Aqylly

theorem memOfGet {α : Type} {l : List α} {j : Nat} {a : α} (h : l[j]? = some a) : a ∈ l :=
  List.get?_mem (by rw [List.get?_eq_getElem?]; exact h)

theorem getValueAux_fuel {α : Type} : ∀ (f1 f2 : Nat) (n : Node α) (q : List Char)
    (m : String) (a : List (List Char × List Char)),
    Node.size n < f1 → Node.size n < f2 →
    Node.getValueAux f1 n q m a = Node.getValueAux f2 n q m a := by
  intro f1
  induction f1 with
  | zero =>
    intro f2 n q m a h1 _
    have := size_pos n
    omega
  | succ f1 ih =>
    intro f2 n q m a h1 h2
    match f2, h2 with
    | f2 + 1, h2 =>
      cases n with
      | mk p ind w t pr cs hs ps =>
        have hchild : ∀ c ∈ cs, Node.size c < Node.size (Node.mk p ind w t pr cs hs ps) :=
          fun c hc => size_child_lt _ c (by simpa [Node.children] using hc)
        simp only [Node.getValueAux, Node.path, Node.wildChild, Node.indices, Node.children,
          Node.handlers, Node.params, Node.nType]
        by_cases hlen : p.length < q.length
        · simp only [if_pos hlen]
          by_cases htake : q.take p.length = p
          · simp only [if_pos htake]
            cases w with
            | false =>
              simp only [Bool.not_false, if_true]
              cases hq : q.drop p.length with
              | nil => rfl
              | cons c q' =>
                cases hfind : listFindIdx ind c with
                | none => simp [hfind]
                | some j =>
                  cases hget : cs[j]? with
                  | none => simp [hfind, hget]
                  | some child =>
                    simp only [List.get?_eq_getElem?, hfind, hget]
                    have hmem : child ∈ cs := memOfGet hget
                    exact ih f2 child _ m a
                      (by have := hchild child hmem; omega)
                      (by have := hchild child hmem; omega)
            | true =>
              simp only [Bool.not_true, if_false]
              cases hget0 : cs[0]? with
              | none => simp [hget0]
              | some child =>
                have hmem : child ∈ cs := memOfGet hget0
                have hcsz := hchild child hmem
                obtain ⟨cp, cind, cw, ct, cpr, ccs, chs, cps⟩ := child
                simp only [List.get?_eq_getElem?, hget0]
                cases ct with
                | param =>
                  simp only [Node.children, Node.path, Node.handlers, Node.nType]
                  by_cases he : countParamEnd (q.drop p.length) < (q.drop p.length).length
                  · simp only [if_pos he]
                    cases hgc : ccs[0]? with
                    | none => simp [hgc]
                    | some gchild =>
                      simp only [List.get?_eq_getElem?, hgc]
                      have hgmem : gchild ∈ ccs := memOfGet hgc
                      have h3 : Node.size gchild <
                          Node.size (Node.mk cp cind cw .param cpr ccs chs cps) :=
                        size_child_lt _ _ (by simpa [Node.children] using hgmem)
                      exact ih f2 gchild _ m _
                        (by simp only [Node.size] at h3 hcsz h1; omega)
                        (by simp only [Node.size] at h3 hcsz h2; omega)
                  · simp only [if_neg he]
                    rfl
                | catchAll => rfl
                | static => rfl
                | root => rfl
          · simp only [if_neg htake]
        · simp only [if_neg hlen]

theorem getValueAux_bump {α : Type} : ∀ (f : Nat) (n : Node α) (q : List Char)
    (m : String) (a : List (List Char × List Char)),
    Node.getValueAux f (Node.bumpPrio n) q m a = Node.getValueAux f n q m a := by
  intro f n q m a
  cases f with
  | zero => rfl
  | succ f =>
    cases n with
    | mk p ind w t pr cs hs ps => rfl

theorem size_bump {α : Type} (n : Node α) : Node.size (Node.bumpPrio n) = Node.size n := by
  cases n with
  | mk p ind w t pr cs hs ps => rfl

theorem listFindIdx_spec : ∀ (l : List Char) (c : Char) (j : Nat),
    listFindIdx l c = some j → j < l.length ∧ l[j]? = some c := by
  intro l
  induction l with
  | nil => intro c j h; simp [listFindIdx] at h
  | cons x rest ih =>
    intro c j h
    simp only [listFindIdx] at h
    split_ifs at h with hx
    · cases h
      subst hx
      simp
    · cases hr : listFindIdx rest c with
      | none => rw [hr] at h; simp at h
      | some j' =>
        rw [hr] at h
        simp at h
        obtain ⟨h1, h2⟩ := ih c j' hr
        subst h
        refine ⟨by simp; omega, by simpa using h2⟩

theorem gv_eq_path {α : Type} (n : Node α) (m : String) :
    Node.getValue n n.path m =
      (match mapGet n.handlers m with
       | some h => Lookup.found h []
       | none => Lookup.miss) := by
  cases n with
  | mk p ind w t pr cs hs ps =>
    show Node.getValueAux (Node.size (Node.mk p ind w t pr cs hs ps) + 1) _ _ _ _ = _
    simp only [Node.getValueAux, Node.path, Node.handlers]
    rw [if_neg (by omega)]
    simp

theorem gv_extend {α : Type} (p ind : List Char) (t : NType) (pr : Nat)
    (cs : List (Node α)) (hs : List (String × α)) (ps : List (List Char))
    (hlen : ind.length = cs.length)
    (c : Char) (q₂ : List Char) (m : String) :
    Node.getValue (Node.mk p ind false t pr cs hs ps) (p ++ c :: q₂) m =
      (match childFor ind cs c with
       | some child => Node.getValue child (c :: q₂) m
       | none => Lookup.miss) := by
  show Node.getValueAux (Node.size (Node.mk p ind false t pr cs hs ps) + 1) _ _ _ _ = _
  simp only [Node.getValueAux, Node.path, Node.wildChild, Node.indices, Node.children,
    Node.handlers, Bool.not_false, if_true]
  rw [if_pos (by simp)]
  rw [if_pos (by simp [List.take_left'])]
  rw [show List.drop p.length (p ++ c :: q₂) = c :: q₂ from by simp [List.drop_left']]
  cases hfind : listFindIdx ind c with
  | none => simp [childFor, hfind]
  | some j =>
    obtain ⟨hjlt, _⟩ := listFindIdx_spec ind c j hfind
    cases hget : cs[j]? with
    | none =>
      have : cs.length ≤ j := by
        rw [← List.getElem?_eq_none_iff]
        exact hget
      omega
    | some child =>
      simp only [List.get?_eq_getElem?, hfind, hget, childFor]
      have hmem : child ∈ cs := memOfGet hget
      have hsz : Node.size child < Node.size (Node.mk p ind false t pr cs hs ps) :=
        size_child_lt _ _ (by simpa [Node.children] using hmem)
      show Node.getValueAux (Node.size (Node.mk p ind false t pr cs hs ps)) _ _ _ _ = _
      exact getValueAux_fuel _ _ child _ m [] (by omega) (by omega)

theorem gv_other {α : Type} (n : Node α) (q : List Char) (m : String)
    (hnp : ¬ n.path <+: q) : Node.getValue n q m = Lookup.miss := by
  cases n with
  | mk p ind w t pr cs hs ps =>
    simp only [Node.path] at hnp
    show Node.getValueAux (Node.size (Node.mk p ind w t pr cs hs ps) + 1) _ _ _ _ = _
    simp only [Node.getValueAux, Node.path]
    by_cases hlen : p.length < q.length
    · rw [if_pos hlen]
      have hne : ¬ q.take p.length = p :=
        fun htake => hnp ⟨q.drop p.length,
          by nth_rewrite 1 [← htake]; exact List.take_append_drop _ q⟩
      rw [if_neg hne]
    · rw [if_neg hlen]
      rw [if_neg (fun heq => hnp (by rw [heq]))]

theorem childFor_eq_pairFirst {α : Type} : ∀ (ind : List Char) (cs : List (Node α)),
    ind.length = cs.length → ∀ c, childFor ind cs c = pairFirst (ind.zip cs) c := by
  intro ind
  induction ind with
  | nil =>
    intro cs h c
    cases cs with
    | nil => rfl
    | cons y cs => simp at h
  | cons x ind ih =>
    intro cs h c
    cases cs with
    | nil => simp at h
    | cons y cs =>
      simp only [List.zip_cons_cons, pairFirst, childFor, listFindIdx]
      by_cases hx : x = c
      · simp [hx]
      · rw [if_neg hx, if_neg hx]
        have hrec := ih cs (by simpa using h) c
        simp only [childFor] at hrec
        cases hf : listFindIdx ind c with
        | none => simp [hf] at hrec ⊢; exact hrec
        | some j => simp [hf] at hrec ⊢; exact hrec

theorem priorityAt_congr {α : Type} (l l' : List (Node α)) (k : Nat)
    (h : l[k]? = l'[k]?) : Node.priorityAt l k = Node.priorityAt l' k := by
  simp only [Node.priorityAt, List.get?_eq_getElem?, h]

theorem priorityAt_of_getElem {α : Type} (l : List (Node α)) (k : Nat) (x : Node α)
    (h : l[k]? = some x) : Node.priorityAt l k = x.priority := by
  simp only [Node.priorityAt, List.get?_eq_getElem?, h]

theorem swapAdj_eq {α : Type} : ∀ (k : Nat) (cs : List (Node α)) (a b : Node α),
    cs[k]? = some a → cs[k + 1]? = some b →
    Node.swapAdj cs k = cs.take k ++ b :: a :: cs.drop (k + 2) := by
  intro k
  induction k with
  | zero =>
    intro cs a b ha hb
    match cs, ha, hb with
    | x :: y :: rest, ha, hb =>
      simp at ha hb
      subst ha; subst hb
      rfl
  | succ k ih =>
    intro cs a b ha hb
    match cs with
    | [] => simp at ha
    | [x] => simp at ha
    | x :: y :: rest =>
      simp only [List.getElem?_cons_succ] at ha hb
      rw [show Node.swapAdj (x :: y :: rest) (k + 1) = x :: Node.swapAdj (y :: rest) k
        from rfl]
      rw [ih (y :: rest) a b ha (by simpa using hb)]
      simp [List.take_succ_cons]

theorem listBumpAt_length {α : Type} : ∀ (cs : List (Node α)) (j : Nat),
    (Node.listBumpAt cs j).length = cs.length := by
  intro cs
  induction cs with
  | nil => intro j; rfl
  | cons c cs ih =>
    intro j
    cases j with
    | zero => rfl
    | succ j => simp [Node.listBumpAt, ih j]

theorem listBumpAt_getElem {α : Type} : ∀ (cs : List (Node α)) (j i : Nat),
    (Node.listBumpAt cs j)[i]? =
      if i = j then (cs[j]?).map Node.bumpPrio else cs[i]? := by
  intro cs
  induction cs with
  | nil => intro j i; simp [Node.listBumpAt]
  | cons c cs ih =>
    intro j i
    cases j with
    | zero =>
      cases i with
      | zero => simp [Node.listBumpAt]
      | succ i => simp [Node.listBumpAt]
    | succ j =>
      cases i with
      | zero => simp [Node.listBumpAt]
      | succ i =>
        simp only [Node.listBumpAt, List.getElem?_cons_succ, ih j i]
        by_cases hij : i = j
        · simp [hij]
        · simp [hij, fun h => hij (Nat.succ_injective h)]

theorem getElem?_some_of_lt {α : Type} (l : List α) (j : Nat) (h : j < l.length) :
    ∃ x, l[j]? = some x := by
  cases hh : l[j]? with
  | none => rw [List.getElem?_eq_none_iff] at hh; omega
  | some x => exact ⟨x, rfl⟩

theorem drop_take_one {α : Type} (l : List α) (j : Nat) (x : α) (h : l[j]? = some x) :
    (l.drop j).take 1 = [x] := by
  have hlt : j < l.length := by
    by_contra hc
    rw [List.getElem?_eq_none_iff.mpr (by omega)] at h
    cases h
  rw [List.drop_eq_getElem_cons hlt]
  simp only [List.take_succ_cons, List.take_zero]
  have : l[j] = x := by
    have := List.getElem?_eq_getElem hlt
    rw [h] at this
    exact (Option.some_injective _ this.symm)
  rw [this]

theorem icpLoop_spec {α : Type} : ∀ (k : Nat) (cs : List (Node α)) (prio : Nat),
    k < cs.length →
    (Node.icpLoop cs prio k).2 ≤ k ∧
    (Node.icpLoop cs prio k).1 =
      cs.take (Node.icpLoop cs prio k).2 ++ (cs.drop k).take 1 ++
        (cs.drop (Node.icpLoop cs prio k).2).take (k - (Node.icpLoop cs prio k).2) ++
        cs.drop (k + 1) ∧
    (∀ idx, (Node.icpLoop cs prio k).2 ≤ idx → idx < k → Node.priorityAt cs idx < prio) ∧
    ((Node.icpLoop cs prio k).2 = 0 ∨
      ¬ Node.priorityAt cs ((Node.icpLoop cs prio k).2 - 1) < prio) := by
  intro k
  induction k with
  | zero =>
    intro cs prio hk
    rw [show Node.icpLoop cs prio 0 = (cs, 0) from rfl]
    refine ⟨le_refl 0, ?_, by intro idx h1 h2; omega, Or.inl rfl⟩
    simp only [List.take_zero, List.drop_zero, Nat.sub_zero, List.nil_append,
      List.append_nil, Nat.zero_sub]
    exact (List.take_append_drop 1 cs).symm
  | succ k ih =>
    intro cs prio hk
    have hklen : k < cs.length := by omega
    by_cases hp : Node.priorityAt cs k < prio
    · rw [show Node.icpLoop cs prio (k + 1) = Node.icpLoop (Node.swapAdj cs k) prio k from by
        simp [Node.icpLoop, hp]]
      obtain ⟨a, ha⟩ := getElem?_some_of_lt cs k hklen
      obtain ⟨b, hb⟩ := getElem?_some_of_lt cs (k + 1) hk
      have hsw := swapAdj_eq k cs a b ha hb
      have htklen : (cs.take k).length = k := List.length_take_of_le (by omega)
      have hlen' : (Node.swapAdj cs k).length = cs.length := by
        rw [hsw]
        simp only [List.length_append, List.length_cons, List.length_drop, htklen]
        omega
      obtain ⟨ih1, ih2, ih3, ih4⟩ := ih (Node.swapAdj cs k) prio (by omega)
      set k' := (Node.icpLoop (Node.swapAdj cs k) prio k).2 with hkdef
      have hswget : ∀ idx, idx < k → (Node.swapAdj cs k)[idx]? = cs[idx]? := by
        intro idx hidx
        rw [hsw, List.getElem?_append, htklen, if_pos hidx, List.getElem?_take_of_lt hidx]
      have hbr1 : (Node.swapAdj cs k).take k' = cs.take k' := by
        rw [hsw, List.take_append_of_le_length (by rw [htklen]; exact ih1), List.take_take,
          Nat.min_eq_left ih1]
      have hbr2 : ((Node.swapAdj cs k).drop k).take 1 = [b] := by
        rw [hsw, List.drop_left' htklen]
        rfl
      have hbr3 : ((Node.swapAdj cs k).drop k').take (k - k') = (cs.drop k').take (k - k') := by
        rw [hsw, List.drop_append_of_le_length (by rw [htklen]; exact ih1),
          List.take_append_of_le_length (by rw [List.length_drop, htklen]), List.drop_take]
        simp [List.take_take]
      have hbr4 : (Node.swapAdj cs k).drop (k + 1) = a :: cs.drop (k + 2) := by
        rw [hsw]
        have h2 : (cs.take k ++ b :: a :: cs.drop (k + 2)).drop (k + 1) =
            ((b :: a :: cs.drop (k + 2)) : List (Node α)).drop 1 := by
          rw [List.drop_append_eq_append_drop, htklen]
          have hnil : (cs.take k).drop (k + 1) = ([] : List (Node α)) :=
            List.drop_eq_nil_of_le (by rw [htklen]; omega)
          rw [hnil, List.nil_append, show k + 1 - k = 1 from by omega]
        rw [h2]
        rfl
      refine ⟨by omega, ?_, ?_, ?_⟩
      · rw [ih2, hbr1, hbr2, hbr3, hbr4]
        have htgt1 : (cs.drop (k + 1)).take 1 = [b] := drop_take_one cs (k + 1) b hb
        have htgt2 : (cs.drop k').take (k + 1 - k') = (cs.drop k').take (k - k') ++ [a] := by
          rw [show k + 1 - k' = (k - k') + 1 from by omega, List.take_succ]
          have h3 : (cs.drop k')[k - k']? = some a := by
            rw [List.getElem?_drop, show k' + (k - k') = k from by omega]
            exact ha
          rw [h3]
          rfl
        rw [htgt1, htgt2]
        simp [List.append_assoc]
      · intro idx hge hlt
        rcases Nat.lt_or_ge idx k with hik | hik
        · have h4 := ih3 idx hge hik
          rwa [priorityAt_congr _ cs idx (hswget idx hik)] at h4
        · have h5 : idx = k := by omega
          subst h5
          exact hp
      · rcases ih4 with h0 | hstop
        · exact Or.inl h0
        · rcases Nat.eq_zero_or_pos k' with h0 | hpos
          · exact Or.inl h0
          · right
            rwa [priorityAt_congr _ cs (k' - 1) (hswget (k' - 1) (by omega))] at hstop
    · rw [show Node.icpLoop cs prio (k + 1) = (cs, k + 1) from by simp [Node.icpLoop, hp]]
      refine ⟨le_refl _, ?_, by intro idx h1 h2; omega, Or.inr (by simpa using hp)⟩
      simp only [Nat.sub_self, List.take_zero, List.append_nil]
      obtain ⟨c, hc⟩ := getElem?_some_of_lt cs (k + 1) hk
      rw [drop_take_one cs (k + 1) c hc]
      have hdc : cs.drop (k + 1) = c :: cs.drop (k + 2) := by
        rw [List.drop_eq_getElem_cons (by omega : k + 1 < cs.length)]
        congr 1
        have h2 := List.getElem?_eq_getElem (by omega : k + 1 < cs.length)
        rw [hc] at h2
        exact (Option.some_injective _ h2).symm
      conv_lhs => rw [← List.take_append_drop (k + 1) cs, hdc]
      simp

theorem staticPath_mem {p : List Char} (h : staticPath p = true) {c : Char} (hc : c ∈ p) :
    c ≠ ':' ∧ c ≠ '*' := by
  simp [staticPath] at h
  exact h c hc

theorem staticPath_take (p : List Char) (i : Nat) (h : staticPath p = true) :
    staticPath (p.take i) = true := by
  simp [staticPath] at h ⊢
  exact fun c hc => h c (List.mem_of_mem_take hc)

theorem staticPath_drop (p : List Char) (i : Nat) (h : staticPath p = true) :
    staticPath (p.drop i) = true := by
  simp [staticPath] at h ⊢
  exact fun c hc => h c (List.mem_of_mem_drop hc)

theorem lcp_pos (a b : List Char) (ha : a ≠ []) (hb : b ≠ []) (hh : a.head? = b.head?) :
    1 ≤ longestCommonPrefix a b := by
  cases a with
  | nil => exact absurd rfl ha
  | cons x a' =>
    cases b with
    | nil => exact absurd rfl hb
    | cons y b' =>
      simp only [List.head?_cons, Option.some.injEq] at hh
      simp [longestCommonPrefix, hh]

theorem prefix_trichotomy (a q : List Char) :
    ¬ a <+: q ∨ q = a ∨ ∃ c rest, q = a ++ c :: rest := by
  by_cases h : a <+: q
  · obtain ⟨t, ht⟩ := h
    cases t with
    | nil => right; left; rw [← ht]; simp
    | cons c rest => right; right; exact ⟨c, rest, ht.symm⟩
  · left; exact h

theorem prefix_getElem? {a q : List Char} (h : a <+: q) {i : Nat} (hi : i < a.length) :
    q[i]? = a[i]? := by
  obtain ⟨t, ht⟩ := h
  rw [← ht, List.getElem?_append, if_pos hi]

theorem ne_prefix_of_diverge (a : List Char) (i : Nat) (hi : i < a.length)
    (e : Char) (rest : List Char) (he : a[i]? ≠ some e) :
    ¬ a <+: (a.take i ++ e :: rest) := by
  intro hpre
  have h1 := prefix_getElem? hpre hi
  rw [List.getElem?_append, List.length_take_of_le (Nat.le_of_lt hi),
    if_neg (lt_irrefl i), Nat.sub_self] at h1
  simp only [List.getElem?_cons_zero] at h1
  exact he h1.symm

theorem mapGet_mapSet {κ : Type} [DecidableEq κ] {α : Type} :
    ∀ (l : List (κ × α)) (k k' : κ) (v : α),
    mapGet (mapSet l k v) k' = if k = k' then some v else mapGet l k' := by
  intro l
  induction l with
  | nil => intro k k' v; simp [mapSet, mapGet]
  | cons kv rest ih =>
    intro k k' v
    obtain ⟨k0, v0⟩ := kv
    simp only [mapSet]
    by_cases h0 : k0 = k
    · subst h0
      simp only [if_pos rfl, mapGet]
      by_cases h1 : k0 = k'
      · subst h1; simp
      · simp [h1, mapGet]
    · rw [if_neg h0]
      simp only [mapGet]
      by_cases h1 : k0 = k'
      · subst h1
        rw [if_pos rfl, if_pos rfl, if_neg (fun h : k = k0 => h0 h.symm)]
      · rw [if_neg h1, if_neg h1, ih]

theorem listFindIdx_none_iff : ∀ (l : List Char) (c : Char),
    listFindIdx l c = none ↔ c ∉ l := by
  intro l
  induction l with
  | nil => intro c; simp [listFindIdx]
  | cons x rest ih =>
    intro c
    simp only [listFindIdx]
    by_cases hx : x = c
    · simp [hx]
    · rw [if_neg hx]
      cases hr : listFindIdx rest c with
      | none =>
        have hcr : c ∉ rest := (ih c).mp hr
        constructor
        · intro _ hmem
          rcases List.mem_cons.mp hmem with h | h
          · exact hx h.symm
          · exact hcr h
        · intro _; rfl
      | some j =>
        simp only [Option.map_some']
        constructor
        · intro h; cases h
        · intro h
          exfalso
          have : c ∈ rest := by
            by_contra hc
            rw [← ih c] at hc
            rw [hc] at hr
            cases hr
          exact h (List.mem_cons_of_mem x this)

theorem listFindIdx_nodup : ∀ (l : List Char), l.Nodup → ∀ (k : Nat) (c : Char),
    l[k]? = some c → listFindIdx l c = some k := by
  intro l
  induction l with
  | nil => intro _ k c h; cases k <;> simp at h
  | cons x rest ih =>
    intro hnd k c h
    simp only [List.nodup_cons] at hnd
    cases k with
    | zero =>
      simp only [List.getElem?_cons_zero, Option.some.injEq] at h
      subst h
      simp [listFindIdx]
    | succ k =>
      simp only [List.getElem?_cons_succ] at h
      have hmem : c ∈ rest := memOfGet h
      have hx : x ≠ c := fun he => hnd.1 (he ▸ hmem)
      simp only [listFindIdx, if_neg hx, ih hnd.2 k c h, Option.map_some']

theorem listFindIdx_append_some : ∀ (l l2 : List Char) (c : Char) (j : Nat),
    listFindIdx l c = some j → listFindIdx (l ++ l2) c = some j := by
  intro l
  induction l with
  | nil => intro l2 c j h; cases h
  | cons x rest ih =>
    intro l2 c j h
    simp only [List.cons_append, listFindIdx, List.append_eq] at h ⊢
    by_cases hx : x = c
    · rw [if_pos hx] at h ⊢; exact h
    · rw [if_neg hx] at h ⊢
      cases hr : listFindIdx rest c with
      | none => rw [hr] at h; cases h
      | some j' =>
        rw [hr] at h
        rw [ih l2 c j' hr]
        exact h

theorem listFindIdx_append_none : ∀ (l : List Char) (c e : Char),
    listFindIdx l e = none →
    listFindIdx (l ++ [c]) e = if c = e then some l.length else none := by
  intro l
  induction l with
  | nil =>
    intro c e _
    simp only [List.nil_append, listFindIdx, List.length_nil]
    by_cases hc : c = e
    · simp [hc]
    · simp [hc, listFindIdx]
  | cons x rest ih =>
    intro c e h
    simp only [List.cons_append, listFindIdx, List.append_eq] at h ⊢
    by_cases hx : x = e
    · rw [if_pos hx] at h; cases h
    · rw [if_neg hx] at h ⊢
      cases hr : listFindIdx rest e with
      | some j => rw [hr] at h; cases h
      | none =>
        rw [ih c e hr]
        by_cases hc : c = e
        · simp [hc]
        · simp [hc]

theorem surgery_length {β : Type} (k' k : Nat) (l : List β) (h1 : k' ≤ k)
    (h2 : k < l.length) : (surgery k' k l).length = l.length := by
  simp only [surgery, List.length_append, List.length_take, List.length_drop]
  omega

theorem surgery_getElem? {β : Type} (k' k : Nat) (l : List β) (h1 : k' ≤ k)
    (h2 : k < l.length) (idx : Nat) :
    (surgery k' k l)[idx]? =
      if idx < k' then l[idx]?
      else if idx = k' then l[k]?
      else if idx ≤ k then l[idx - 1]?
      else l[idx]? := by
  have hA : (l.take k').length = k' := by simp; omega
  have hB : ((l.drop k).take 1).length = 1 := by simp; omega
  have hC : ((l.drop k').take (k - k')).length = k - k' := by simp; omega
  simp only [surgery]
  rw [List.getElem?_append, List.getElem?_append, List.getElem?_append]
  simp only [List.length_append, hA, hB, hC]
  by_cases c1 : idx < k'
  · rw [if_pos (show idx < k' + 1 + (k - k') by omega), if_pos (show idx < k' + 1 by omega),
      if_pos c1, List.getElem?_take_of_lt c1, if_pos c1]
  · by_cases c2 : idx = k'
    · rw [if_pos (show idx < k' + 1 + (k - k') by omega), if_pos (show idx < k' + 1 by omega),
        if_neg c1, if_neg c1, if_pos c2, show idx - k' = 0 from by omega,
        List.getElem?_take_of_lt (show (0:Nat) < 1 by omega), List.getElem?_drop]
      simp
    · by_cases c3 : idx ≤ k
      · rw [if_pos (show idx < k' + 1 + (k - k') by omega),
          if_neg (show ¬ idx < k' + 1 by omega), if_neg c1, if_neg c2, if_pos c3,
          List.getElem?_take_of_lt (show idx - (k' + 1) < k - k' by omega),
          List.getElem?_drop, show k' + (idx - (k' + 1)) = idx - 1 from by omega]
      · rw [if_neg (show ¬ idx < k' + 1 + (k - k') by omega), if_neg c1, if_neg c2, if_neg c3,
          List.getElem?_drop, show k + 1 + (idx - (k' + 1 + (k - k'))) = idx from by omega]

theorem surgery_self {β : Type} (k : Nat) (l : List β) (h : k < l.length) :
    surgery k k l = l := by
  simp only [surgery, Nat.sub_self, List.take_zero, List.append_nil]
  have hbd : (l.drop k).take 1 ++ l.drop (k + 1) = l.drop k := by
    rw [← List.drop_drop, List.take_append_drop]
  rw [List.append_assoc, hbd, List.take_append_drop]

theorem surgery_perm {β : Type} (k' k : Nat) (l : List β) (h1 : k' ≤ k)
    (h2 : k < l.length) : (surgery k' k l).Perm l := by
  have hsplit : l = l.take k' ++ (l.drop k').take (k - k') ++
      ((l.drop k).take 1 ++ l.drop (k + 1)) := by
    rw [← List.drop_drop, List.take_append_drop,
      ← List.take_add, show k' + (k - k') = k from by omega, List.take_append_drop]
  conv_rhs => rw [hsplit]
  simp only [surgery, List.append_assoc]
  refine (List.Perm.append_left _ ?_)
  rw [← List.append_assoc ((l.drop k).take 1), ← List.append_assoc ((l.drop k').take (k - k'))]
  exact List.Perm.append_right _ (List.perm_append_comm)

theorem bump_priority {α : Type} (n : Node α) :
    (Node.bumpPrio n).priority = n.priority + 1 := by
  cases n; rfl

theorem bump_path {α : Type} (n : Node α) : (Node.bumpPrio n).path = n.path := by
  cases n; rfl

theorem bump_children {α : Type} (n : Node α) :
    (Node.bumpPrio n).children = n.children := by
  cases n; rfl

theorem wfS_bump {α : Type} (n : Node α) (h : Node.wfS n) : Node.wfS (Node.bumpPrio n) := by
  cases n; exact h

theorem icp_spec {α : Type} (p ind : List Char) (w : Bool) (ty : NType) (pr : Nat)
    (cs : List (Node α)) (hs : List (String × α)) (ps : List (List Char))
    (pos np : Nat) (n' : Node α)
    (hpos : pos < cs.length) (hind : pos < ind.length)
    (hres : Node.incrementChildPrio (Node.mk p ind w ty pr cs hs ps) pos = (np, n')) :
    np ≤ pos ∧
    n' = Node.mk p (surgery np pos ind) w ty pr
        (surgery np pos (Node.listBumpAt cs pos)) hs ps ∧
    (∀ idx, np ≤ idx → idx < pos →
      Node.priorityAt (Node.listBumpAt cs pos) idx <
        Node.priorityAt (Node.listBumpAt cs pos) pos) ∧
    (np = 0 ∨ ¬ Node.priorityAt (Node.listBumpAt cs pos) (np - 1) <
        Node.priorityAt (Node.listBumpAt cs pos) pos) := by
  have hlenB : (Node.listBumpAt cs pos).length = cs.length := listBumpAt_length cs pos
  obtain ⟨s1, s2, s3, s4⟩ := icpLoop_spec pos (Node.listBumpAt cs pos)
    (Node.priorityAt (Node.listBumpAt cs pos) pos) (by omega)
  simp only [Node.incrementChildPrio] at hres
  rcases hic : Node.icpLoop (Node.listBumpAt cs pos)
      (Node.priorityAt (Node.listBumpAt cs pos) pos) pos with ⟨cs2, np2⟩
  rw [hic] at hres s1 s2 s3 s4
  simp only at hres s1 s2 s3 s4
  rw [Prod.mk.injEq] at hres
  obtain ⟨hnp, hn'⟩ := hres
  subst hnp
  refine ⟨s1, ?_, s3, s4⟩
  rw [← hn']
  by_cases hne : np2 ≠ pos
  · rw [if_pos hne, s2]
    simp only [surgery]
  · rw [if_neg hne]
    push_neg at hne
    rw [s2]
    subst hne
    rw [surgery_self np2 ind hind]
    simp only [surgery]

theorem priorityAt_eq_getElem? {α : Type} (l : List (Node α)) (k : Nat) :
    Node.priorityAt l k = match l[k]? with | some c => c.priority | none => 0 := by
  simp [Node.priorityAt, List.get?_eq_getElem?]

theorem priorityAt_cons_succ {α : Type} (a : Node α) (t : List (Node α)) (i : Nat) :
    Node.priorityAt (a :: t) (i + 1) = Node.priorityAt t i := by
  rw [priorityAt_eq_getElem?, priorityAt_eq_getElem?, List.getElem?_cons_succ]

theorem priorityAt_cons_zero {α : Type} (a : Node α) (t : List (Node α)) :
    Node.priorityAt (a :: t) 0 = a.priority := by
  rw [priorityAt_eq_getElem?, List.getElem?_cons_zero]

theorem sortedByPrio_iff {α : Type} : ∀ (l : List (Node α)),
    Node.sortedByPrio l = true ↔
      ∀ i, i + 1 < l.length → Node.priorityAt l (i + 1) ≤ Node.priorityAt l i := by
  intro l
  induction l with
  | nil => simp [Node.sortedByPrio]
  | cons a l ih =>
    cases l with
    | nil =>
      simp only [Node.sortedByPrio, List.length_cons, List.length_nil, true_iff]
      intro i hi
      omega
    | cons b l2 =>
      simp only [Node.sortedByPrio, Bool.and_eq_true, decide_eq_true_eq]
      rw [ih]
      constructor
      · rintro ⟨h1, h2⟩ i hi
        cases i with
        | zero =>
          rw [priorityAt_cons_succ, priorityAt_cons_zero, priorityAt_cons_zero]
          exact h1
        | succ i =>
          rw [priorityAt_cons_succ, priorityAt_cons_succ]
          exact h2 i (by simpa using hi)
      · intro h
        constructor
        · have := h 0 (by simp)
          rw [priorityAt_cons_succ, priorityAt_cons_zero, priorityAt_cons_zero] at this
          exact this
        · intro i hi
          have := h (i + 1) (by simpa using hi)
          rw [priorityAt_cons_succ, priorityAt_cons_succ] at this
          exact this

theorem sorted_priorityAt_le {α : Type} (l : List (Node α))
    (hs : Node.sortedByPrio l = true) (i j : Nat) (hij : i ≤ j) (hj : j < l.length) :
    Node.priorityAt l j ≤ Node.priorityAt l i := by
  rw [sortedByPrio_iff] at hs
  induction j, hij using Nat.le_induction with
  | base => exact le_refl _
  | succ j hij ih =>
    exact le_trans (hs j hj) (ih (by omega))

theorem priorityAt_listBumpAt {α : Type} (cs : List (Node α)) (k idx : Nat) :
    Node.priorityAt (Node.listBumpAt cs k) idx =
      if idx = k ∧ k < cs.length then Node.priorityAt cs idx + 1
      else Node.priorityAt cs idx := by
  rw [priorityAt_eq_getElem?, priorityAt_eq_getElem?, listBumpAt_getElem]
  by_cases h : idx = k
  · subst h
    by_cases hlt : idx < cs.length
    · obtain ⟨x, hx⟩ := getElem?_some_of_lt cs idx hlt
      rw [if_pos rfl, hx, if_pos ⟨rfl, hlt⟩]
      simp [bump_priority]
    · rw [if_pos rfl, List.getElem?_eq_none_iff.mpr (by omega),
        if_neg (fun hc => hlt hc.2)]
      simp
  · rw [if_neg h, if_neg (fun hc => h hc.1)]

theorem priorityAt_surgery {α : Type} (k' k : Nat) (l : List (Node α)) (h1 : k' ≤ k)
    (h2 : k < l.length) (idx : Nat) :
    Node.priorityAt (surgery k' k l) idx =
      if idx < k' then Node.priorityAt l idx
      else if idx = k' then Node.priorityAt l k
      else if idx ≤ k then Node.priorityAt l (idx - 1)
      else Node.priorityAt l idx := by
  by_cases c1 : idx < k'
  · rw [priorityAt_eq_getElem?, surgery_getElem? k' k l h1 h2, if_pos c1, if_pos c1,
      priorityAt_eq_getElem?]
  · by_cases c2 : idx = k'
    · rw [priorityAt_eq_getElem?, surgery_getElem? k' k l h1 h2, if_neg c1, if_pos c2,
        if_neg c1, if_pos c2, priorityAt_eq_getElem?]
    · by_cases c3 : idx ≤ k
      · rw [priorityAt_eq_getElem?, surgery_getElem? k' k l h1 h2, if_neg c1, if_neg c2,
          if_pos c3, if_neg c1, if_neg c2, if_pos c3, priorityAt_eq_getElem?]
      · rw [priorityAt_eq_getElem?, surgery_getElem? k' k l h1 h2, if_neg c1, if_neg c2,
          if_neg c3, if_neg c1, if_neg c2, if_neg c3, priorityAt_eq_getElem?]

theorem sorted_surgery {α : Type} (cs : List (Node α)) (k' k : Nat)
    (h1 : k' ≤ k) (h2 : k < cs.length)
    (hsort : Node.sortedByPrio cs = true)
    (hmoved : ∀ idx, k' ≤ idx → idx < k →
      Node.priorityAt (Node.listBumpAt cs k) idx <
        Node.priorityAt (Node.listBumpAt cs k) k)
    (hstop : k' = 0 ∨ ¬ Node.priorityAt (Node.listBumpAt cs k) (k' - 1) <
        Node.priorityAt (Node.listBumpAt cs k) k) :
    Node.sortedByPrio (surgery k' k (Node.listBumpAt cs k)) = true := by
  have hlenB : (Node.listBumpAt cs k).length = cs.length := listBumpAt_length cs k
  have hpB : ∀ idx, idx ≠ k →
      Node.priorityAt (Node.listBumpAt cs k) idx = Node.priorityAt cs idx := by
    intro idx hne
    rw [priorityAt_listBumpAt, if_neg (fun hc => hne hc.1)]
  have hpBk : Node.priorityAt (Node.listBumpAt cs k) k = Node.priorityAt cs k + 1 := by
    rw [priorityAt_listBumpAt, if_pos ⟨rfl, h2⟩]
  have hadj : ∀ i, i + 1 < cs.length →
      Node.priorityAt cs (i + 1) ≤ Node.priorityAt cs i :=
    (sortedByPrio_iff cs).mp hsort
  rw [sortedByPrio_iff]
  intro i hi
  rw [surgery_length k' k _ h1 (by omega), hlenB] at hi
  rw [priorityAt_surgery k' k _ h1 (by omega), priorityAt_surgery k' k _ h1 (by omega)]
  by_cases c1 : i + 1 < k'
  · rw [if_pos c1, if_pos (show i < k' by omega), hpB (i + 1) (by omega), hpB i (by omega)]
    exact hadj i hi
  · by_cases c2 : i + 1 = k'
    · rw [if_neg c1, if_pos c2, if_pos (show i < k' by omega)]
      rcases hstop with h0 | hstop
      · omega
      · rw [show i = k' - 1 from by omega]
        exact not_lt.mp hstop
    · by_cases c3 : i = k'
      · by_cases c4 : i + 1 ≤ k
        · rw [if_neg c1, if_neg c2, if_pos c4, if_neg (show ¬ i < k' by omega), if_pos c3,
            show i + 1 - 1 = i from by omega]
          exact le_of_lt (hmoved i (by omega) (by omega))
        · rw [if_neg c1, if_neg c2, if_neg c4, if_neg (show ¬ i < k' by omega), if_pos c3,
            hpB (i + 1) (by omega), hpBk]
          have hik : i = k := by omega
          subst hik
          have h5 := hadj i (by omega)
          omega
      · by_cases c5 : i + 1 ≤ k
        · rw [if_neg c1, if_neg c2, if_pos c5, if_neg (show ¬ i < k' by omega), if_neg c3,
            if_pos (show i ≤ k by omega), show i + 1 - 1 = i from by omega,
            hpB i (by omega), hpB (i - 1) (by omega)]
          have h5 := hadj (i - 1) (by omega)
          rw [show i - 1 + 1 = i from by omega] at h5
          exact h5
        · by_cases c6 : i ≤ k
          · rw [if_neg c1, if_neg c2, if_neg c5, if_neg (show ¬ i < k' by omega), if_neg c3,
              if_pos c6, hpB (i + 1) (by omega), hpB (i - 1) (by omega)]
            exact sorted_priorityAt_le cs hsort (i - 1) (i + 1) (by omega) (by omega)
          · rw [if_neg c1, if_neg c2, if_neg c5, if_neg (show ¬ i < k' by omega), if_neg c3,
              if_neg c6, hpB (i + 1) (by omega), hpB i (by omega)]
            exact hadj i hi

theorem forall₂_iff_getElem? {α β : Type} {R : α → β → Prop} {l₁ : List α} {l₂ : List β} :
    List.Forall₂ R l₁ l₂ ↔
      (l₁.length = l₂.length ∧
        ∀ (i : Nat) (x : α) (y : β), l₁[i]? = some x → l₂[i]? = some y → R x y) := by
  rw [List.forall₂_iff_get]
  constructor
  · rintro ⟨hlen, h⟩
    refine ⟨hlen, fun i x y hx hy => ?_⟩
    have hi1 : i < l₁.length := by
      by_contra hc
      rw [List.getElem?_eq_none_iff.mpr (by omega)] at hx
      cases hx
    have hi2 : i < l₂.length := by omega
    have e1 := List.getElem?_eq_getElem hi1
    have e2 := List.getElem?_eq_getElem hi2
    rw [hx] at e1
    rw [hy] at e2
    have hx' : x = l₁.get ⟨i, hi1⟩ := Option.some_injective _ e1
    have hy' : y = l₂.get ⟨i, hi2⟩ := Option.some_injective _ e2
    rw [hx', hy']
    exact h i hi1 hi2
  · rintro ⟨hlen, h⟩
    refine ⟨hlen, fun i h1 h2 => h i _ _ ?_ ?_⟩
    · exact List.getElem?_eq_getElem h1
    · exact List.getElem?_eq_getElem h2

theorem wfSAll_iff {α : Type} : ∀ (cs : List (Node α)),
    Node.wfSAll cs ↔ ∀ c ∈ cs, 1 ≤ c.priority ∧ staticPath c.path = true ∧ Node.wfS c := by
  intro cs
  induction cs with
  | nil => simp [Node.wfSAll]
  | cons c cs ih =>
    simp only [Node.wfSAll, ih, List.mem_cons]
    constructor
    · rintro ⟨h1, h2⟩ x hx
      rcases hx with rfl | hx
      · exact h1
      · exact h2 x hx
    · intro h
      exact ⟨h c (Or.inl rfl), fun x hx => h x (Or.inr hx)⟩

theorem sorted_set_same_prio {α : Type} (l : List (Node α)) (j : Nat) (x y : Node α)
    (hx : l[j]? = some x) (hp : y.priority = x.priority)
    (hs : Node.sortedByPrio l = true) : Node.sortedByPrio (l.set j y) = true := by
  have hj : j < l.length := by
    by_contra hc
    rw [List.getElem?_eq_none_iff.mpr (by omega)] at hx
    cases hx
  have hpt : ∀ idx, Node.priorityAt (l.set j y) idx = Node.priorityAt l idx := by
    intro idx
    rw [priorityAt_eq_getElem?, priorityAt_eq_getElem?, List.getElem?_set]
    by_cases h : j = idx
    · subst h
      rw [if_pos rfl, if_pos hj, hx]
      simp [hp]
    · rw [if_neg h]
  rw [sortedByPrio_iff] at hs ⊢
  intro i hi
  rw [List.length_set] at hi
  rw [hpt, hpt]
  exact hs i hi

theorem sorted_append_one {α : Type} (l : List (Node α)) (y : Node α)
    (hs : Node.sortedByPrio l = true) (hy : ∀ x ∈ l, y.priority ≤ x.priority) :
    Node.sortedByPrio (l ++ [y]) = true := by
  rw [sortedByPrio_iff] at hs ⊢
  intro i hi
  simp only [List.length_append, List.length_cons, List.length_nil] at hi
  by_cases hlast : i + 1 = l.length
  · have hL : Node.priorityAt (l ++ [y]) (i + 1) = y.priority := by
      rw [priorityAt_eq_getElem?, hlast, List.getElem?_concat_length]
    have hR : Node.priorityAt (l ++ [y]) i = Node.priorityAt l i := by
      rw [priorityAt_eq_getElem?, priorityAt_eq_getElem?, List.getElem?_append,
        if_pos (show i < l.length by omega)]
    rw [hL, hR]
    obtain ⟨x, hxg⟩ := getElem?_some_of_lt l i (by omega)
    rw [priorityAt_eq_getElem?, hxg]
    exact hy x (memOfGet hxg)
  · have h1 : i + 1 < l.length := by omega
    have hL : Node.priorityAt (l ++ [y]) (i + 1) = Node.priorityAt l (i + 1) := by
      rw [priorityAt_eq_getElem?, priorityAt_eq_getElem?, List.getElem?_append, if_pos h1]
    have hR : Node.priorityAt (l ++ [y]) i = Node.priorityAt l i := by
      rw [priorityAt_eq_getElem?, priorityAt_eq_getElem?, List.getElem?_append,
        if_pos (show i < l.length by omega)]
    rw [hL, hR]
    exact hs i h1

theorem childFor_surgery_set {α : Type} (ind : List Char) (l : List (Node α))
    (k' k : Nat) (y : Node α) (ck : Char)
    (hlen : ind.length = l.length) (h1 : k' ≤ k) (h2 : k < l.length)
    (hnd : ind.Nodup) (hk : ind[k]? = some ck) (c : Char) :
    childFor (surgery k' k ind) ((surgery k' k l).set k' y) c =
      if c = ck then some y else childFor ind l c := by
  have hk' : k < ind.length := by omega
  have hndS : (surgery k' k ind).Nodup := ((surgery_perm k' k ind h1 hk').nodup_iff).mpr hnd
  have hlenSl : (surgery k' k l).length = l.length := surgery_length k' k l h1 h2
  by_cases hc : c = ck
  · subst hc
    have hg : (surgery k' k ind)[k']? = some c := by
      rw [surgery_getElem? k' k ind h1 hk', if_neg (lt_irrefl k'), if_pos rfl]
      exact hk
    have hfind := listFindIdx_nodup (surgery k' k ind) hndS k' c hg
    simp only [childFor, hfind]
    rw [if_pos trivial, List.getElem?_set, if_pos rfl,
      if_pos (show k' < (surgery k' k l).length by rw [hlenSl]; omega)]
  · rw [if_neg hc]
    by_cases hmem : c ∈ ind
    · obtain ⟨jc, hjc⟩ := List.mem_iff_getElem?.mp hmem
      have hfind0 := listFindIdx_nodup ind hnd jc c hjc
      have hjlt : jc < ind.length := by
        by_contra hcon
        rw [List.getElem?_eq_none_iff.mpr (by omega)] at hjc
        cases hjc
      have hjck : jc ≠ k := by
        intro he
        rw [he, hk] at hjc
        exact hc (Option.some_injective _ hjc).symm
      have main : ∀ s, s ≠ k' → (surgery k' k ind)[s]? = some c →
          (surgery k' k l)[s]? = l[jc]? →
          childFor (surgery k' k ind) ((surgery k' k l).set k' y) c = l[jc]? := by
        intro s hs hgi hgl
        have hfind := listFindIdx_nodup _ hndS s c hgi
        simp only [childFor, hfind]
        rw [List.getElem?_set, if_neg (fun he => hs he.symm), hgl]
      rw [show childFor ind l c = l[jc]? from by simp only [childFor, hfind0]]
      rcases Nat.lt_or_ge jc k' with hb | hb
      · exact main jc (by omega)
          (by rw [surgery_getElem? k' k ind h1 hk', if_pos hb]; exact hjc)
          (by rw [surgery_getElem? k' k l h1 h2, if_pos hb])
      · rcases Nat.lt_or_ge jc k with hb2 | hb2
        · refine main (jc + 1) (by omega) ?_ ?_
          · rw [surgery_getElem? k' k ind h1 hk',
              if_neg (show ¬ jc + 1 < k' by omega),
              if_neg (show ¬ jc + 1 = k' by omega),
              if_pos (show jc + 1 ≤ k by omega)]
            simp only [Nat.add_sub_cancel]
            exact hjc
          · rw [surgery_getElem? k' k l h1 h2,
              if_neg (show ¬ jc + 1 < k' by omega),
              if_neg (show ¬ jc + 1 = k' by omega),
              if_pos (show jc + 1 ≤ k by omega)]
            simp only [Nat.add_sub_cancel]
        · have hbgt : k < jc := by omega
          refine main jc (by omega) ?_ ?_
          · rw [surgery_getElem? k' k ind h1 hk',
              if_neg (show ¬ jc < k' by omega),
              if_neg (show ¬ jc = k' by omega),
              if_neg (show ¬ jc ≤ k by omega)]
            exact hjc
          · rw [surgery_getElem? k' k l h1 h2,
              if_neg (show ¬ jc < k' by omega),
              if_neg (show ¬ jc = k' by omega),
              if_neg (show ¬ jc ≤ k by omega)]
    · have h0 : listFindIdx ind c = none := (listFindIdx_none_iff ind c).mpr hmem
      have hS : c ∉ surgery k' k ind :=
        fun hmm => hmem ((surgery_perm k' k ind h1 hk').mem_iff.mp hmm)
      have hSf : listFindIdx (surgery k' k ind) c = none := (listFindIdx_none_iff _ c).mpr hS
      simp only [childFor, h0, hSf]

theorem childFor_listBumpAt_ne {α : Type} (ind : List Char) (cs : List (Node α)) (k : Nat)
    (ck : Char) (hk : ind[k]? = some ck) (c : Char) (hc : c ≠ ck) :
    childFor ind (Node.listBumpAt cs k) c = childFor ind cs c := by
  simp only [childFor]
  cases hf : listFindIdx ind c with
  | none => rfl
  | some j =>
    have hspec := listFindIdx_spec ind c j hf
    have hjk : j ≠ k := by
      intro he
      have h2 := hspec.2
      rw [he, hk] at h2
      exact hc (Option.some_injective _ h2).symm
    show (Node.listBumpAt cs k)[j]? = cs[j]?
    rw [listBumpAt_getElem, if_neg hjk]

theorem gv_prepend {α : Type} (a b ind : List Char) (ty1 ty2 : NType) (pr1 pr2 : Nat)
    (cs : List (Node α)) (hs : List (String × α)) (ps : List (List Char))
    (r : List Char) (m : String) :
    Node.getValue (Node.mk (a ++ b) ind false ty1 pr1 cs hs ps) (a ++ r) m =
      Node.getValue (Node.mk b ind false ty2 pr2 cs hs ps) r m := by
  show Node.getValueAux (Node.size (Node.mk (a ++ b) ind false ty1 pr1 cs hs ps) + 1) _ _ _ _ =
    Node.getValueAux (Node.size (Node.mk b ind false ty2 pr2 cs hs ps) + 1) _ _ _ _
  show Node.getValueAux (1 + Node.sizeList cs + 1) _ _ _ _ =
    Node.getValueAux (1 + Node.sizeList cs + 1) _ _ _ _
  by_cases hlen : b.length < r.length
  · by_cases htake : r.take b.length = b
    · have htake' : (a ++ r).take (a ++ b).length = a ++ b := by
        rw [List.length_append, List.take_add, List.take_left, List.drop_left, htake]
      have hdrop : (a ++ r).drop (a ++ b).length = r.drop b.length := by
        rw [List.length_append, ← List.drop_drop, List.drop_left]
      simp only [Node.getValueAux, Node.path, Node.wildChild, Node.indices, Node.children,
        Node.handlers, Bool.not_false, if_true]
      rw [if_pos (show (a ++ b).length < (a ++ r).length by
            simp only [List.length_append]; omega),
        if_pos htake', hdrop, if_pos hlen, if_pos htake]
    · have htake' : ¬ (a ++ r).take (a ++ b).length = a ++ b := by
        rw [List.length_append, List.take_add, List.take_left, List.drop_left]
        intro hc
        exact htake (List.append_cancel_left hc)
      simp only [Node.getValueAux, Node.path, Node.wildChild, Node.indices, Node.children,
        Node.handlers, Bool.not_false, if_true]
      rw [if_pos (show (a ++ b).length < (a ++ r).length by
            simp only [List.length_append]; omega),
        if_neg htake', if_pos hlen, if_neg htake]
  · have hlen' : ¬ (a ++ b).length < (a ++ r).length := by
      simp only [List.length_append]; omega
    by_cases heq : r = b
    · subst heq
      simp only [Node.getValueAux, Node.path, Node.wildChild, Node.indices, Node.children,
        Node.handlers, Bool.not_false, if_true]
      rw [if_neg hlen', if_neg hlen]
    · simp only [Node.getValueAux, Node.path, Node.wildChild, Node.indices, Node.children,
        Node.handlers, Bool.not_false, if_true]
      rw [if_neg hlen', if_neg (fun hc => heq (List.append_cancel_left hc)),
        if_neg hlen, if_neg heq]

theorem gv_leaf {α : Type} (lp : List Char) (ty : NType) (pr : Nat)
    (hs : List (String × α)) (ps : List (List Char)) (q : List Char) (m : String) :
    Node.getValue (Node.mk lp [] false ty pr [] hs ps) q m =
      (if q = lp then
        (match mapGet hs m with
         | some h => Lookup.found h []
         | none => Lookup.miss)
      else Lookup.miss) := by
  show Node.getValueAux (Node.size (Node.mk lp [] false ty pr [] hs ps) + 1) _ _ _ _ = _
  simp only [Node.getValueAux, Node.path, Node.wildChild, Node.indices, Node.children,
    Node.handlers, Bool.not_false, if_true]
  by_cases hlen : lp.length < q.length
  · rw [if_pos hlen, if_neg (show ¬ q = lp from fun hc => by subst hc; omega)]
    by_cases htake : q.take lp.length = lp
    · rw [if_pos htake]
      cases hd : q.drop lp.length with
      | nil =>
        exfalso
        have hdl := List.length_drop lp.length q
        rw [hd] at hdl
        simp at hdl
        omega
      | cons c rest => rfl
    · rw [if_neg htake]
  · rw [if_neg hlen]

theorem gv_empty {α : Type} (q : List Char) (m : String) :
    Node.getValue (Node.empty : Node α) q m = Lookup.miss := by
  show Node.getValue (Node.mk [] [] false .static 0 [] [] []) q m = _
  rw [gv_leaf]
  by_cases h : q = []
  · rw [if_pos h]; rfl
  · rw [if_neg h]

theorem getValue_bump {α : Type} (n : Node α) (q : List Char) (m : String) :
    Node.getValue (Node.bumpPrio n) q m = Node.getValue n q m := by
  show Node.getValueAux (Node.size (Node.bumpPrio n) + 1) _ _ _ _ =
    Node.getValueAux (Node.size n + 1) _ _ _ _
  rw [size_bump, getValueAux_bump]

theorem listBumpAt_append_last {α : Type} : ∀ (cs : List (Node α)) (x : Node α),
    Node.listBumpAt (cs ++ [x]) cs.length = cs ++ [Node.bumpPrio x] := by
  intro cs
  induction cs with
  | nil => intro x; rfl
  | cons c0 cs0 ih =>
    intro x
    show Node.listBumpAt (c0 :: (cs0 ++ [x])) (cs0.length + 1) = _
    simp only [Node.listBumpAt]
    rw [ih x]
    rfl

theorem set_append_last {α : Type} : ∀ (cs : List α) (x y : α),
    (cs ++ [x]).set cs.length y = cs ++ [y] := by
  intro cs
  induction cs with
  | nil => intro x y; rfl
  | cons c0 cs0 ih =>
    intro x y
    show (c0 :: (cs0 ++ [x])).set (cs0.length + 1) y = _
    simp only [List.set]
    rw [ih x y]
    rfl

theorem icp_append_empty {α : Type} (P IND : List Char) (ty : NType) (pr : Nat)
    (CS : List (Node α)) (HS : List (String × α)) (PS : List (List Char)) (c : Char)
    (hall : ∀ x ∈ CS, 1 ≤ x.priority) :
    Node.incrementChildPrio (Node.mk P (IND ++ [c]) false ty pr
        (CS ++ [Node.empty]) HS PS) CS.length =
      (CS.length, Node.mk P (IND ++ [c]) false ty pr
        (CS ++ [Node.mk [] [] false .static 1 [] [] []]) HS PS) := by
  have hbump : Node.listBumpAt (CS ++ [(Node.empty : Node α)]) CS.length =
      CS ++ [Node.mk [] [] false .static 1 [] [] []] := by
    rw [listBumpAt_append_last]
    rfl
  have hprio : Node.priorityAt
      (CS ++ [(Node.mk [] [] false .static 1 [] [] [] : Node α)]) CS.length = 1 := by
    rw [priorityAt_eq_getElem?, List.getElem?_concat_length]
    rfl
  have hloop : Node.icpLoop
      (CS ++ [(Node.mk [] [] false .static 1 [] [] [] : Node α)]) 1 CS.length =
      (CS ++ [Node.mk [] [] false .static 1 [] [] []], CS.length) := by
    cases hcs : CS with
    | nil => rfl
    | cons c0 cs0 =>
      show Node.icpLoop _ 1 (cs0.length + 1) = _
      simp only [Node.icpLoop]
      have hne : ¬ Node.priorityAt
          (c0 :: cs0 ++ [(Node.mk [] [] false .static 1 [] [] [] : Node α)]) cs0.length < 1 := by
        have hg : (c0 :: cs0 ++ [(Node.mk [] [] false .static 1 [] [] [] : Node α)])[cs0.length]? =
            (c0 :: cs0)[cs0.length]? := by
          rw [List.getElem?_append, if_pos (by simp)]
        obtain ⟨x, hx⟩ := getElem?_some_of_lt (c0 :: cs0) cs0.length (by simp)
        rw [priorityAt_eq_getElem?, hg, hx]
        show ¬ x.priority < 1
        have := hall x (by rw [hcs]; exact memOfGet hx)
        omega
      rw [if_neg hne]
      rfl
  simp only [Node.incrementChildPrio]
  rw [hbump, hprio, hloop]
  simp

theorem insertChild_static {α : Type} (f : Nat) (P IND : List Char) (W : Bool) (T : NType)
    (PR : Nat) (CS : List (Node α)) (HS : List (String × α)) (PS : List (List Char))
    (pth : List Char) (m : String) (h : α) (hstat : staticPath pth = true) :
    Node.insertChild (f + 1) (Node.mk P IND W T PR CS HS PS) pth m h =
      .ok (Node.mk pth IND W T PR CS (mapSet HS m h) PS) := by
  simp only [Node.insertChild, findWildcard_static pth hstat]

theorem childFor_append {α : Type} (IND : List Char) (CS : List (Node α)) (c : Char)
    (leaf : Node α) (hlen : IND.length = CS.length)
    (hno : listFindIdx IND c = none) (e : Char) :
    childFor (IND ++ [c]) (CS ++ [leaf]) e =
      if e = c then some leaf else childFor IND CS e := by
  simp only [childFor]
  cases hf : listFindIdx IND e with
  | some j =>
    rw [listFindIdx_append_some IND [c] e j hf]
    have hj := (listFindIdx_spec IND e j hf).1
    have hec : e ≠ c := by
      intro he
      rw [he] at hf
      rw [hf] at hno
      cases hno
    rw [if_neg hec]
    show (CS ++ [leaf])[j]? = CS[j]?
    rw [List.getElem?_append, if_pos (by omega)]
  | none =>
    rw [listFindIdx_append_none IND c e hf]
    by_cases he : c = e
    · rw [if_pos he, if_pos he.symm]
      show (CS ++ [leaf])[IND.length]? = some leaf
      rw [hlen, List.getElem?_concat_length]
    · rw [if_neg he, if_neg (fun hc => he hc.symm)]

theorem forall₂_surgery {α β : Type} {R : α → β → Prop} (k' k : Nat) (l₁ : List α)
    (l₂ : List β) (h1 : k' ≤ k) (hk : k < l₁.length)
    (hf : List.Forall₂ R l₁ l₂) :
    List.Forall₂ R (surgery k' k l₁) (surgery k' k l₂) := by
  obtain ⟨hlen, hp⟩ := forall₂_iff_getElem?.mp hf
  rw [forall₂_iff_getElem?]
  constructor
  · rw [surgery_length k' k l₁ h1 hk, surgery_length k' k l₂ h1 (by omega)]
    exact hlen
  · intro i x y hx hy
    rw [surgery_getElem? k' k l₁ h1 hk] at hx
    rw [surgery_getElem? k' k l₂ h1 (by omega)] at hy
    by_cases c1 : i < k'
    · rw [if_pos c1] at hx hy
      exact hp i x y hx hy
    · by_cases c2 : i = k'
      · rw [if_neg c1, if_pos c2] at hx hy
        exact hp k x y hx hy
      · by_cases c3 : i ≤ k
        · rw [if_neg c1, if_neg c2, if_pos c3] at hx hy
          exact hp (i - 1) x y hx hy
        · rw [if_neg c1, if_neg c2, if_neg c3] at hx hy
          exact hp i x y hx hy

theorem forall₂_set {α β : Type} {R : α → β → Prop} (l₁ : List α) (l₂ : List β)
    (hf : List.Forall₂ R l₁ l₂) (j : Nat) (x : α) (y : β)
    (hx : l₁[j]? = some x) (hR : R x y) :
    List.Forall₂ R l₁ (l₂.set j y) := by
  obtain ⟨hlen, hp⟩ := forall₂_iff_getElem?.mp hf
  rw [forall₂_iff_getElem?]
  refine ⟨by rw [List.length_set]; exact hlen, ?_⟩
  intro i a b ha hb
  rw [List.getElem?_set] at hb
  by_cases hij : j = i
  · subst hij
    rw [if_pos rfl] at hb
    by_cases hjl : j < l₂.length
    · rw [if_pos hjl] at hb
      have hby : b = y := Option.some_injective _ hb.symm
      have hax : a = x := by
        rw [ha] at hx
        exact Option.some_injective _ hx
      rw [hby, hax]
      exact hR
    · rw [if_neg hjl] at hb
      cases hb
  · rw [if_neg hij] at hb
    exact hp i a b ha hb

theorem forall₂_head_listBumpAt {α : Type} (ind : List Char) (cs : List (Node α)) (k : Nat)
    (hf : List.Forall₂ (fun c child => child.path.head? = some c) ind cs) :
    List.Forall₂ (fun (c : Char) (child : Node α) => child.path.head? = some c) ind
      (Node.listBumpAt cs k) := by
  obtain ⟨hlen, hp⟩ := forall₂_iff_getElem?.mp hf
  rw [forall₂_iff_getElem?]
  refine ⟨by rw [listBumpAt_length]; exact hlen, ?_⟩
  intro i x y hx hy
  rw [listBumpAt_getElem] at hy
  by_cases hik : i = k
  · rw [if_pos hik] at hy
    cases hg : cs[k]? with
    | none =>
      rw [hg] at hy
      cases hy
    | some z =>
      rw [hg] at hy
      simp only [Option.map_some'] at hy
      have hy' : y = Node.bumpPrio z := Option.some_injective _ hy.symm
      rw [hy', bump_path]
      subst hik
      exact hp i x z hx hg
  · rw [if_neg hik] at hy
    exact hp i x y hx hy

theorem wfSAll_listBumpAt {α : Type} (cs : List (Node α)) (k : Nat)
    (h : Node.wfSAll cs) : Node.wfSAll (Node.listBumpAt cs k) := by
  rw [wfSAll_iff] at h ⊢
  intro c hc
  rw [List.mem_iff_getElem?] at hc
  obtain ⟨i, hi⟩ := hc
  rw [listBumpAt_getElem] at hi
  by_cases hik : i = k
  · rw [if_pos hik] at hi
    cases hg : cs[k]? with
    | none =>
      rw [hg] at hi
      cases hi
    | some z =>
      rw [hg] at hi
      simp only [Option.map_some'] at hi
      have hz : c = Node.bumpPrio z := Option.some_injective _ hi.symm
      obtain ⟨hz1, hz2, hz3⟩ := h z (memOfGet hg)
      subst hz
      exact ⟨by rw [bump_priority]; omega, by rw [bump_path]; exact hz2, wfS_bump z hz3⟩
  · rw [if_neg hik] at hi
    exact h c (memOfGet hi)

theorem wfSAll_of_perm {α : Type} (l l' : List (Node α)) (hperm : l.Perm l')
    (h : Node.wfSAll l') : Node.wfSAll l := by
  rw [wfSAll_iff] at h ⊢
  exact fun c hc => h c (hperm.mem_iff.mp hc)

theorem wfSAll_set {α : Type} (l : List (Node α)) (j : Nat) (y : Node α)
    (h : Node.wfSAll l)
    (hy : 1 ≤ y.priority ∧ staticPath y.path = true ∧ Node.wfS y) :
    Node.wfSAll (l.set j y) := by
  rw [wfSAll_iff] at h ⊢
  intro c hc
  rw [List.mem_iff_getElem?] at hc
  obtain ⟨i, hi⟩ := hc
  rw [List.getElem?_set] at hi
  by_cases hij : j = i
  · rw [if_pos hij] at hi
    by_cases hjl : j < l.length
    · rw [if_pos hjl] at hi
      have : c = y := Option.some_injective _ hi.symm
      rw [this]
      exact hy
    · rw [if_neg hjl] at hi
      cases hi
  · rw [if_neg hij] at hi
    exact h c (memOfGet hi)

theorem wfSAll_append_one {α : Type} (l : List (Node α)) (y : Node α)
    (h : Node.wfSAll l)
    (hy : 1 ≤ y.priority ∧ staticPath y.path = true ∧ Node.wfS y) :
    Node.wfSAll (l ++ [y]) := by
  rw [wfSAll_iff] at h ⊢
  intro c hc
  rcases List.mem_append.mp hc with hc | hc
  · exact h c hc
  · rw [List.mem_singleton] at hc
    rw [hc]
    exact hy

theorem gv_walk_here {α : Type} (tp ind : List Char) (ty : NType) (pr : Nat)
    (cs : List (Node α)) (hs : List (String × α)) (ps : List (List Char))
    (m : String) (h : α) (hlen : ind.length = cs.length) (q : List Char) (m' : String) :
    Node.getValue (Node.mk tp ind false ty pr cs (mapSet hs m h) ps) q m' =
      (if q = tp ∧ m' = m then Lookup.found h []
       else Node.getValue (Node.mk tp ind false ty pr cs hs ps) q m') := by
  rcases prefix_trichotomy tp q with hno | heq | ⟨e, rest, hext⟩
  · rw [gv_other (Node.mk tp ind false ty pr cs (mapSet hs m h) ps) q m' hno,
      if_neg (by rintro ⟨rfl, -⟩; exact hno (List.prefix_refl _)),
      gv_other (Node.mk tp ind false ty pr cs hs ps) q m' hno]
  · have e1 := gv_eq_path (Node.mk tp ind false ty pr cs (mapSet hs m h) ps) m'
    have e2 := gv_eq_path (Node.mk tp ind false ty pr cs hs ps) m'
    simp only [Node.path, Node.handlers] at e1 e2
    rw [heq, e1, mapGet_mapSet]
    by_cases hm : m' = m
    · rw [if_pos (show m = m' from hm.symm),
        if_pos (show tp = tp ∧ m' = m from ⟨rfl, hm⟩)]
    · rw [if_neg (show ¬ m = m' from fun hc => hm hc.symm),
        if_neg (show ¬ (tp = tp ∧ m' = m) from fun hc => hm hc.2), e2]
  · have g1 := gv_extend tp ind ty pr cs (mapSet hs m h) ps hlen e rest m'
    have g2 := gv_extend tp ind ty pr cs hs ps hlen e rest m'
    rw [hext, g1, g2, if_neg (by
      rintro ⟨he, -⟩
      have := congrArg List.length he
      simp at this)]

theorem gv_walk_deep {α : Type} (tp ind1 ind2 : List Char) (ty1 ty2 : NType)
    (pr1 pr2 : Nat) (cs1 cs2 : List (Node α)) (hs : List (String × α))
    (ps1 ps2 : List (List Char)) (c0 : Char) (rest0 : List Char) (m : String) (h : α)
    (hlen1 : ind1.length = cs1.length) (hlen2 : ind2.length = cs2.length)
    (hchild : ∀ e, e ≠ c0 → childFor ind2 cs2 e = childFor ind1 cs1 e)
    (hc0 : ∀ q2 m',
      (match childFor ind2 cs2 c0 with
       | some x => Node.getValue x (c0 :: q2) m'
       | none => Lookup.miss) =
      (if q2 = rest0 ∧ m' = m then Lookup.found h []
       else match childFor ind1 cs1 c0 with
       | some x => Node.getValue x (c0 :: q2) m'
       | none => Lookup.miss)) :
    ∀ q m', Node.getValue (Node.mk tp ind2 false ty2 pr2 cs2 hs ps2) q m' =
      (if q = tp ++ c0 :: rest0 ∧ m' = m then Lookup.found h []
       else Node.getValue (Node.mk tp ind1 false ty1 pr1 cs1 hs ps1) q m') := by
  intro q m'
  rcases prefix_trichotomy tp q with hno | heq | ⟨e, rest, hext⟩
  · rw [gv_other (Node.mk tp ind2 false ty2 pr2 cs2 hs ps2) q m' hno,
      if_neg (by rintro ⟨rfl, -⟩; exact hno ⟨c0 :: rest0, rfl⟩),
      gv_other (Node.mk tp ind1 false ty1 pr1 cs1 hs ps1) q m' hno]
  · have e1 := gv_eq_path (Node.mk tp ind2 false ty2 pr2 cs2 hs ps2) m'
    have e2 := gv_eq_path (Node.mk tp ind1 false ty1 pr1 cs1 hs ps1) m'
    simp only [Node.path, Node.handlers] at e1 e2
    rw [heq, e1, e2, if_neg (by
      rintro ⟨he, -⟩
      have := congrArg List.length he
      simp at this)]
  · have g1 := gv_extend tp ind2 ty2 pr2 cs2 hs ps2 hlen2 e rest m'
    have g2 := gv_extend tp ind1 ty1 pr1 cs1 hs ps1 hlen1 e rest m'
    rw [hext, g1, g2]
    by_cases he : e = c0
    · subst he
      rw [hc0 rest m']
      by_cases hcond : rest = rest0 ∧ m' = m
      · rw [if_pos hcond, if_pos ⟨by rw [hcond.1], hcond.2⟩]
      · rw [if_neg hcond, if_neg ?hq]
        case hq =>
          rintro ⟨h1, h2⟩
          apply hcond
          have h3 := List.append_cancel_left h1
          injection h3 with h4 h5
          exact ⟨h5, h2⟩
    · rw [hchild e he, if_neg (by
        rintro ⟨h1, -⟩
        have h3 := List.append_cancel_left h1
        injection h3 with h4 h5
        exact he h4)]

theorem forall₂_append {α β : Type} {R : α → β → Prop} :
    ∀ {l₁ : List α} {l₂ : List β} {u₁ : List α} {u₂ : List β},
    List.Forall₂ R l₁ l₂ → List.Forall₂ R u₁ u₂ →
    List.Forall₂ R (l₁ ++ u₁) (l₂ ++ u₂) := by
  intro l₁
  induction l₁ with
  | nil =>
    intro l₂ u₁ u₂ h1 h2
    cases h1
    simpa using h2
  | cons a l₁ ih =>
    intro l₂ u₁ u₂ h1 h2
    cases h1 with
    | cons hab h1' =>
      simp only [List.cons_append]
      exact List.Forall₂.cons hab (ih h1' h2)

theorem head?_take (l : List Char) (i : Nat) (hi : 1 ≤ i) : (l.take i).head? = l.head? := by
  cases l with
  | nil => simp
  | cons x rest =>
    cases i with
    | zero => omega
    | succ i => simp [List.take_succ_cons]

theorem take_ne_nil (l : List Char) (i : Nat) (hi : 1 ≤ i) (hl : l ≠ []) :
    l.take i ≠ [] := by
  cases l with
  | nil => exact absurd rfl hl
  | cons x rest =>
    cases i with
    | zero => omega
    | succ i => simp [List.take_succ_cons]

theorem icp_two {α : Type} (P : List Char) (D C : Char) (ty : NType) (pr : Nat)
    (S : Node α) (hS : 1 ≤ S.priority) :
    Node.incrementChildPrio (Node.mk P [D, C] false ty pr [S, Node.empty] [] []) 1 =
      (1, Node.mk P [D, C] false ty pr
        [S, Node.mk [] [] false .static 1 [] [] []] [] []) := by
  simp only [Node.incrementChildPrio]
  rw [show Node.listBumpAt [S, (Node.empty : Node α)] 1 =
      [S, Node.mk [] [] false .static 1 [] [] []] from rfl]
  rw [show Node.priorityAt [S, (Node.mk [] [] false .static 1 [] [] [] : Node α)] 1 = 1
      from rfl]
  rw [show Node.icpLoop [S, (Node.mk [] [] false .static 1 [] [] [] : Node α)] 1 1 =
      ([S, Node.mk [] [] false .static 1 [] [] []], 1) from by
    simp only [Node.icpLoop]
    rw [if_neg (show ¬ Node.priorityAt
        [S, (Node.mk [] [] false .static 1 [] [] [] : Node α)] 0 < 1 from by
      show ¬ S.priority < 1
      omega)]]
  simp

theorem walk_install {α : Type} (fuel : Nat) (tp ind : List Char) (ty : NType) (pr : Nat)
    (cs : List (Node α)) (hs : List (String × α)) (ps : List (List Char))
    (p : List Char) (m : String) (h : α) (i : Nat)
    (hgen : longestCommonPrefix p tp = i)
    (hsplit' : ¬ i < tp.length) (hip' : ¬ i < p.length)
    (hile1 : i ≤ p.length) (hile2 : i ≤ tp.length)
    (htake : p.take i = tp.take i)
    (hnd : ind.Nodup)
    (hF : List.Forall₂ (fun c child => child.path.head? = some c) ind cs)
    (hsort : Node.sortedByPrio cs = true) (hall : Node.wfSAll cs)
    (hstp : staticPath tp = true) (htpne : tp ≠ []) :
    ∃ tp' ind' cs' hs' ps',
      Node.addRouteWalk (fuel + 1) (Node.mk tp ind false ty pr cs hs ps) p m h =
        Except.ok (Node.mk tp' ind' false ty pr cs' hs' ps') ∧
      Node.wfS (Node.mk tp' ind' false ty pr cs' hs' ps') ∧
      staticPath tp' = true ∧ tp'.head? = tp.head? ∧ tp' ≠ [] ∧
      (∀ q m', Node.getValue (Node.mk tp' ind' false ty pr cs' hs' ps') q m' =
        (if q = p ∧ m' = m then Lookup.found h []
         else Node.getValue (Node.mk tp ind false ty pr cs hs ps) q m')) := by
  have hlen : ind.length = cs.length := hF.length_eq
  have hptp : p = tp := by
    have h1 : i = p.length := by omega
    have h2 : i = tp.length := by omega
    rw [← List.take_length p, ← h1, htake, h2, List.take_length]
  have heq : Node.addRouteWalk (fuel + 1) (Node.mk tp ind false ty pr cs hs ps) p m h =
      Except.ok (Node.mk tp ind false ty pr cs (mapSet hs m h) ps) := by
    simp only [Node.addRouteWalk, Node.path]
    rw [hgen, if_neg hsplit', if_neg hip']
  refine ⟨tp, ind, cs, mapSet hs m h, ps, heq, ⟨rfl, hnd, hF, hsort, hall⟩, hstp, rfl,
    htpne, ?_⟩
  intro q m'
  rw [hptp]
  exact gv_walk_here tp ind ty pr cs hs ps m h hlen q m'

theorem walk_append {α : Type} (fuel : Nat) (tp ind : List Char) (ty : NType) (pr : Nat)
    (cs : List (Node α)) (hs : List (String × α)) (ps : List (List Char))
    (p : List Char) (m : String) (h : α) (i : Nat) (C : Char)
    (hgen : longestCommonPrefix p tp = i)
    (hsplit' : ¬ i < tp.length) (hip : i < p.length)
    (hile2 : i ≤ tp.length)
    (htake : p.take i = tp.take i)
    (hnd : ind.Nodup)
    (hF : List.Forall₂ (fun c child => child.path.head? = some c) ind cs)
    (hsort : Node.sortedByPrio cs = true) (hall : Node.wfSAll cs)
    (hsp : staticPath p = true) (hstp : staticPath tp = true) (htpne : tp ≠ [])
    (hC : p[i]? = some C) (hfindC : listFindIdx ind C = none) :
    ∃ tp' ind' cs' hs' ps',
      Node.addRouteWalk (fuel + 1) (Node.mk tp ind false ty pr cs hs ps) p m h =
        Except.ok (Node.mk tp' ind' false ty pr cs' hs' ps') ∧
      Node.wfS (Node.mk tp' ind' false ty pr cs' hs' ps') ∧
      staticPath tp' = true ∧ tp'.head? = tp.head? ∧ tp' ≠ [] ∧
      (∀ q m', Node.getValue (Node.mk tp' ind' false ty pr cs' hs' ps') q m' =
        (if q = p ∧ m' = m then Lookup.found h []
         else Node.getValue (Node.mk tp ind false ty pr cs hs ps) q m')) := by
  have hlen : ind.length = cs.length := hF.length_eq
  have hieq : i = tp.length := by omega
  have htpeq : tp = p.take i := by
    rw [htake, hieq, List.take_length]
  have hpdecC : p.drop i = C :: p.drop (i + 1) := by
    rw [List.drop_eq_getElem_cons hip]
    congr 1
    have h2 := List.getElem?_eq_getElem hip
    rw [hC] at h2
    exact (Option.some_injective _ h2).symm
  have hpdecomp : p.take i ++ p.drop i = p := List.take_append_drop i p
  have hpdropstat : staticPath (p.drop i) = true := staticPath_drop p i hsp
  have hCstat : C ≠ ':' ∧ C ≠ '*' := staticPath_mem hsp (memOfGet hC)
  have hCnotin : C ∉ ind := (listFindIdx_none_iff ind C).mp hfindC
  have hallm := (wfSAll_iff cs).mp hall
  have hpfull : tp ++ C :: p.drop (i + 1) = p := by
    rw [htpeq, ← hpdecC, hpdecomp]
  have heq : Node.addRouteWalk (fuel + 1) (Node.mk tp ind false ty pr cs hs ps) p m h =
      Except.ok (Node.mk tp (ind ++ [C]) false ty pr
        (cs ++ [Node.mk (p.drop i) [] false .static 1 [] (mapSet [] m h) []]) hs ps) := by
    simp only [Node.addRouteWalk, Node.path, Node.indices, Node.children]
    rw [hgen, if_neg hsplit', if_pos hip]
    nth_rewrite 1 [hpdecC]
    simp only [hfindC]
    rw [if_pos hCstat]
    rw [show ((ind ++ [C] : List Char)).length - 1 = cs.length from by simp [hlen]]
    rw [show ((cs ++ [(Node.empty : Node α)] : List (Node α))).length - 1 = cs.length
      from by simp]
    rw [icp_append_empty tp ind ty pr cs hs ps C (fun x hx => (hallm x hx).1)]
    rw [if_pos (rfl : cs.length = cs.length)]
    simp only [Node.children]
    simp only [show ((cs ++ [(Node.mk [] [] false NType.static 1 [] [] [] : Node α)] :
        List (Node α))).get? cs.length =
        some (Node.mk [] [] false NType.static 1 [] [] []) from by
      rw [List.get?_eq_getElem?]
      exact List.getElem?_concat_length cs _]
    simp only [insertChild_static p.length [] [] false NType.static 1 [] [] []
      (p.drop i) m h hpdropstat]
    simp only [Node.setChildAt]
    rw [set_append_last]
  have hwfleaf : Node.wfS (Node.mk (p.drop i) [] false NType.static 1 []
      (mapSet [] m h) [] : Node α) :=
    ⟨rfl, List.nodup_nil, List.Forall₂.nil, rfl, trivial⟩
  have hleafhead : (p.drop i).head? = some C := by rw [hpdecC]; rfl
  refine ⟨tp, ind ++ [C],
    cs ++ [Node.mk (p.drop i) [] false .static 1 [] (mapSet [] m h) []], hs, ps,
    heq, ?_, hstp, rfl, htpne, ?_⟩
  · refine ⟨rfl, ?_, ?_, ?_, ?_⟩
    · rw [List.nodup_append]
      refine ⟨hnd, List.nodup_singleton C, ?_⟩
      intro a ha hb
      rw [List.mem_singleton] at hb
      subst hb
      exact hCnotin ha
    · exact forall₂_append hF
        (List.Forall₂.cons (show ((Node.mk (p.drop i) [] false NType.static 1 []
          (mapSet [] m h) [] : Node α)).path.head? = some C from hleafhead)
          List.Forall₂.nil)
    · exact sorted_append_one cs _ hsort (fun x hx => by
        have := (hallm x hx).1
        show 1 ≤ x.priority
        omega)
    · exact wfSAll_append_one cs _ hall ⟨le_refl 1, hpdropstat, hwfleaf⟩
  · have hdeep := gv_walk_deep tp ind (ind ++ [C]) ty ty pr pr cs
      (cs ++ [Node.mk (p.drop i) [] false .static 1 [] (mapSet [] m h) []]) hs ps ps
      C (p.drop (i + 1)) m h hlen (by simp [hlen]) ?hchild ?hc0
    case hchild =>
      intro e he
      rw [childFor_append ind cs C _ hlen hfindC e, if_neg he]
    case hc0 =>
      intro q2 m''
      rw [childFor_append ind cs C _ hlen hfindC C, if_pos rfl]
      simp only [childFor, hfindC]
      rw [gv_leaf]
      by_cases hq2 : q2 = p.drop (i + 1)
      · rw [if_pos (show C :: q2 = p.drop i from by rw [hpdecC, hq2]), mapGet_mapSet]
        by_cases hm'' : m'' = m
        · rw [if_pos (show m = m'' from hm''.symm), if_pos ⟨hq2, hm''⟩]
        · rw [if_neg (show ¬ m = m'' from fun hc => hm'' hc.symm),
            if_neg (fun hc => hm'' hc.2)]
          rfl
      · rw [if_neg (show ¬ C :: q2 = p.drop i from by
            rw [hpdecC]
            intro hc
            injection hc with h1 h2
            exact hq2 h2),
          if_neg (fun hc => hq2 hc.1)]
    intro q m'
    rw [hdeep q m', hpfull]

theorem walk_split_install {α : Type} (fuel : Nat) (tp ind : List Char) (ty : NType)
    (pr : Nat) (cs : List (Node α)) (hs : List (String × α)) (ps : List (List Char))
    (p : List Char) (m : String) (h : α) (i : Nat) (D : Char)
    (hgen : longestCommonPrefix p tp = i)
    (hsplit : i < tp.length) (hip' : ¬ i < p.length)
    (hi1 : 1 ≤ i) (hile1 : i ≤ p.length)
    (htake : p.take i = tp.take i)
    (hnd : ind.Nodup)
    (hF : List.Forall₂ (fun c child => child.path.head? = some c) ind cs)
    (hsort : Node.sortedByPrio cs = true) (hall : Node.wfSAll cs)
    (hsp : staticPath p = true) (hstp : staticPath tp = true)
    (hpne : p ≠ []) (hpr : 2 ≤ pr)
    (hD : tp[i]? = some D) :
    ∃ tp' ind' cs' hs' ps',
      Node.addRouteWalk (fuel + 1) (Node.mk tp ind false ty pr cs hs ps) p m h =
        Except.ok (Node.mk tp' ind' false ty pr cs' hs' ps') ∧
      Node.wfS (Node.mk tp' ind' false ty pr cs' hs' ps') ∧
      staticPath tp' = true ∧ tp'.head? = tp.head? ∧ tp' ≠ [] ∧
      (∀ q m', Node.getValue (Node.mk tp' ind' false ty pr cs' hs' ps') q m' =
        (if q = p ∧ m' = m then Lookup.found h []
         else Node.getValue (Node.mk tp ind false ty pr cs hs ps) q m')) := by
  have hieq : i = p.length := by omega
  have hpt : p.take i = p := by rw [hieq]; exact List.take_length p
  have hptp' : p = tp.take i := by rw [← hpt, htake]
  have hdt1 : (tp.drop i).take 1 = [D] := drop_take_one tp i D hD
  have htpdecD : tp.drop i = D :: tp.drop (i + 1) := by
    rw [List.drop_eq_getElem_cons hsplit]
    congr 1
    have h2 := List.getElem?_eq_getElem hsplit
    rw [hD] at h2
    exact (Option.some_injective _ h2).symm
  have hdropstat : staticPath (tp.drop i) = true := staticPath_drop tp i hstp
  have htpdecomp : p ++ tp.drop i = tp := by
    rw [hptp']
    exact List.take_append_drop i tp
  have heq : Node.addRouteWalk (fuel + 1) (Node.mk tp ind false ty pr cs hs ps) p m h =
      Except.ok (Node.mk (p.take i) [D] false ty pr
        [Node.mk (tp.drop i) ind false .static (pr - 1) cs hs ps] (mapSet [] m h) []) := by
    simp only [Node.addRouteWalk, Node.path, Node.indices]
    rw [hgen, if_pos hsplit, hdt1, if_neg hip']
  rw [hpt] at heq
  have hwfchildS : Node.wfS (Node.mk (tp.drop i) ind false NType.static (pr - 1)
      cs hs ps : Node α) := ⟨rfl, hnd, hF, hsort, hall⟩
  refine ⟨p, [D], [Node.mk (tp.drop i) ind false .static (pr - 1) cs hs ps],
    mapSet [] m h, [], heq, ?_, hsp, ?_, hpne, ?_⟩
  · refine ⟨rfl, List.nodup_singleton D, ?_, rfl, ?_⟩
    · exact List.Forall₂.cons (show ((Node.mk (tp.drop i) ind false NType.static (pr - 1)
        cs hs ps : Node α)).path.head? = some D from by
          show (tp.drop i).head? = some D
          rw [htpdecD]
          rfl) List.Forall₂.nil
    · exact ⟨⟨by show 1 ≤ pr - 1; omega, hdropstat, hwfchildS⟩, trivial⟩
  · -- p.head? = tp.head?
    rw [hptp']
    exact head?_take tp i hi1
  · intro q m'
    rcases prefix_trichotomy p q with hno | hqeq | ⟨e, rest, hext⟩
    · rw [gv_other (Node.mk p [D] false ty pr
        [Node.mk (tp.drop i) ind false .static (pr - 1) cs hs ps] (mapSet [] m h) [])
        q m' hno]
      have hnotp : ¬ tp <+: q := by
        intro hc
        refine hno (List.IsPrefix.trans ?_ hc)
        rw [hptp']
        exact List.take_prefix i tp
      rw [gv_other (Node.mk tp ind false ty pr cs hs ps) q m' hnotp,
        if_neg (by rintro ⟨rfl, -⟩; exact hno (List.prefix_refl _))]
    · have e1 := gv_eq_path (Node.mk p [D] false ty pr
        [Node.mk (tp.drop i) ind false .static (pr - 1) cs hs ps] (mapSet [] m h) []) m'
      simp only [Node.path, Node.handlers] at e1
      rw [hqeq, e1, mapGet_mapSet]
      have hnotp : ¬ tp <+: p := by
        intro hc
        have := hc.length_le
        omega
      by_cases hm : m' = m
      · rw [if_pos (show m = m' from hm.symm), if_pos ⟨rfl, hm⟩]
      · rw [if_neg (show ¬ m = m' from fun hc => hm hc.symm),
          if_neg (fun hc => hm hc.2),
          gv_other (Node.mk tp ind false ty pr cs hs ps) p m' hnotp]
        rfl
    · have g1 := gv_extend p [D] ty pr
        [Node.mk (tp.drop i) ind false .static (pr - 1) cs hs ps] (mapSet [] m h) []
        (by simp) e rest m'
      rw [hext, g1]
      have hqnep : ¬ (p ++ e :: rest = p ∧ m' = m) := by
        rintro ⟨hc, -⟩
        have := congrArg List.length hc
        simp at this
      by_cases heD : e = D
      · subst heD
        rw [show childFor [e] ([Node.mk (tp.drop i) ind false .static (pr - 1) cs hs ps] :
            List (Node α)) e = some (Node.mk (tp.drop i) ind false .static (pr - 1)
            cs hs ps) from by simp [childFor, listFindIdx]]
        have hRHS : Node.getValue (Node.mk tp ind false ty pr cs hs ps)
            (p ++ e :: rest) m' =
            Node.getValue (Node.mk (tp.drop i) ind false .static (pr - 1) cs hs ps)
              (e :: rest) m' := by
          conv_lhs => rw [← htpdecomp]
          exact gv_prepend p (tp.drop i) ind ty .static pr (pr - 1) cs hs ps
            (e :: rest) m'
        rw [if_neg hqnep, hRHS]
      · rw [show childFor [D] ([Node.mk (tp.drop i) ind false .static (pr - 1) cs hs ps] :
            List (Node α)) e = none from by
          simp only [childFor, listFindIdx]
          rw [if_neg (fun hc => heD hc.symm)]
          rfl]
        have hnotp : ¬ tp <+: (p ++ e :: rest) := by
          have hne := ne_prefix_of_diverge tp i hsplit e rest (by
            rw [hD]
            intro hc
            exact heD (Option.some_injective _ hc).symm)
          rw [← hptp'] at hne
          exact hne
        rw [gv_other (Node.mk tp ind false ty pr cs hs ps) _ m' hnotp, if_neg hqnep]

theorem walk_split_append {α : Type} (fuel : Nat) (tp ind : List Char) (ty : NType)
    (pr : Nat) (cs : List (Node α)) (hs : List (String × α)) (ps : List (List Char))
    (p : List Char) (m : String) (h : α) (i : Nat) (D C : Char)
    (hgen : longestCommonPrefix p tp = i)
    (hsplit : i < tp.length) (hip : i < p.length) (hi1 : 1 ≤ i)
    (htake : p.take i = tp.take i)
    (hnd : ind.Nodup)
    (hF : List.Forall₂ (fun c child => child.path.head? = some c) ind cs)
    (hsort : Node.sortedByPrio cs = true) (hall : Node.wfSAll cs)
    (hsp : staticPath p = true) (hstp : staticPath tp = true)
    (hpr : 2 ≤ pr)
    (hD : tp[i]? = some D) (hC : p[i]? = some C) (hCD : C ≠ D) :
    ∃ tp' ind' cs' hs' ps',
      Node.addRouteWalk (fuel + 1) (Node.mk tp ind false ty pr cs hs ps) p m h =
        Except.ok (Node.mk tp' ind' false ty pr cs' hs' ps') ∧
      Node.wfS (Node.mk tp' ind' false ty pr cs' hs' ps') ∧
      staticPath tp' = true ∧ tp'.head? = tp.head? ∧ tp' ≠ [] ∧
      (∀ q m', Node.getValue (Node.mk tp' ind' false ty pr cs' hs' ps') q m' =
        (if q = p ∧ m' = m then Lookup.found h []
         else Node.getValue (Node.mk tp ind false ty pr cs hs ps) q m')) := by
  have htpdecD : tp.drop i = D :: tp.drop (i + 1) := by
    rw [List.drop_eq_getElem_cons hsplit]
    congr 1
    have h2 := List.getElem?_eq_getElem hsplit
    rw [hD] at h2
    exact (Option.some_injective _ h2).symm
  have hpdecC : p.drop i = C :: p.drop (i + 1) := by
    rw [List.drop_eq_getElem_cons hip]
    congr 1
    have h2 := List.getElem?_eq_getElem hip
    rw [hC] at h2
    exact (Option.some_injective _ h2).symm
  have hdt1 : (tp.drop i).take 1 = [D] := drop_take_one tp i D hD
  have hPstat : staticPath (p.take i) = true := staticPath_take p i hsp
  have hdropstat : staticPath (tp.drop i) = true := staticPath_drop tp i hstp
  have hpdropstat : staticPath (p.drop i) = true := staticPath_drop p i hsp
  have hCstat : C ≠ ':' ∧ C ≠ '*' := staticPath_mem hsp (memOfGet hC)
  have hpdecomp : p.take i ++ p.drop i = p := List.take_append_drop i p
  have htpdecomp : p.take i ++ tp.drop i = tp := by
    rw [htake]
    exact List.take_append_drop i tp
  have hfindDC : listFindIdx [D] C = none := by
    simp only [listFindIdx]
    rw [if_neg (fun he => hCD he.symm)]
    rfl
  have heq : Node.addRouteWalk (fuel + 1) (Node.mk tp ind false ty pr cs hs ps) p m h =
      Except.ok (Node.mk (p.take i) [D, C] false ty pr
        [Node.mk (tp.drop i) ind false .static (pr - 1) cs hs ps,
         Node.mk (p.drop i) [] false .static 1 [] (mapSet [] m h) []] [] []) := by
    simp only [Node.addRouteWalk, Node.path, Node.indices, Node.children]
    rw [hgen, if_pos hsplit, hdt1, if_pos hip]
    nth_rewrite 1 [hpdecC]
    simp only [hfindDC]
    rw [if_pos hCstat]
    simp only [List.cons_append, List.nil_append]
    rw [show (([D, C] : List Char)).length - 1 = 1 from rfl]
    rw [show (([Node.mk (tp.drop i) ind false .static (pr - 1) cs hs ps,
        (Node.empty : Node α)] : List (Node α))).length - 1 = 1 from rfl]
    rw [icp_two (p.take i) D C ty pr
      (Node.mk (tp.drop i) ind false .static (pr - 1) cs hs ps)
      (show 1 ≤ (Node.mk (tp.drop i) ind false NType.static (pr - 1) cs hs ps :
        Node α).priority from by show 1 ≤ pr - 1; omega)]
    rw [if_pos (rfl : (1 : Nat) = 1)]
    simp only [Node.children]
    simp only [show (([Node.mk (tp.drop i) ind false .static (pr - 1) cs hs ps,
        (Node.mk [] [] false NType.static 1 [] [] [] : Node α)] :
        List (Node α))).get? 1 = some (Node.mk [] [] false NType.static 1 [] [] [])
      from rfl]
    simp only [insertChild_static p.length [] [] false NType.static 1 [] [] []
      (p.drop i) m h hpdropstat]
    simp only [Node.setChildAt]
    rfl
  have hwfchildS : Node.wfS (Node.mk (tp.drop i) ind false NType.static (pr - 1)
      cs hs ps : Node α) := ⟨rfl, hnd, hF, hsort, hall⟩
  have hwfleaf : Node.wfS (Node.mk (p.drop i) [] false NType.static 1 []
      (mapSet [] m h) [] : Node α) :=
    ⟨rfl, List.nodup_nil, List.Forall₂.nil, rfl, trivial⟩
  have hqne : ∀ e (rest : List Char), e ≠ C → ¬ (p.take i ++ e :: rest = p) := by
    intro e rest he hc
    nth_rewrite 2 [← hpdecomp] at hc
    rw [hpdecC] at hc
    have h3 := List.append_cancel_left hc
    injection h3 with h4 h5
    exact he h4
  refine ⟨p.take i, [D, C],
    [Node.mk (tp.drop i) ind false .static (pr - 1) cs hs ps,
     Node.mk (p.drop i) [] false .static 1 [] (mapSet [] m h) []], [], [],
    heq, ?_, hPstat, by rw [htake]; exact head?_take tp i hi1,
    take_ne_nil p i hi1 (by intro he; rw [he] at hip; simp at hip), ?_⟩
  · refine ⟨rfl, by simp [Ne.symm hCD], ?_, ?_, ?_⟩
    · refine List.Forall₂.cons ?_ (List.Forall₂.cons ?_ List.Forall₂.nil)
      · show (tp.drop i).head? = some D
        rw [htpdecD]
        rfl
      · show (p.drop i).head? = some C
        rw [hpdecC]
        rfl
    · show (decide (1 ≤ pr - 1) && Node.sortedByPrio
        [(Node.mk (p.drop i) [] false NType.static 1 [] (mapSet [] m h) [] : Node α)]) = true
      rw [show Node.sortedByPrio [(Node.mk (p.drop i) [] false NType.static 1 []
        (mapSet [] m h) [] : Node α)] = true from rfl, Bool.and_true, decide_eq_true_eq]
      omega
    · exact ⟨⟨by show 1 ≤ pr - 1; omega, hdropstat, hwfchildS⟩,
        ⟨le_refl 1, hpdropstat, hwfleaf⟩, trivial⟩
  · intro q m'
    rcases prefix_trichotomy (p.take i) q with hno | hqeq | ⟨e, rest, hext⟩
    · rw [gv_other (Node.mk (p.take i) [D, C] false ty pr
        [Node.mk (tp.drop i) ind false .static (pr - 1) cs hs ps,
         Node.mk (p.drop i) [] false .static 1 [] (mapSet [] m h) []] [] []) q m' hno]
      have hnotp : ¬ tp <+: q := by
        intro hc
        refine hno (List.IsPrefix.trans ?_ hc)
        rw [htake]
        exact List.take_prefix i tp
      rw [gv_other (Node.mk tp ind false ty pr cs hs ps) q m' hnotp,
        if_neg (by
          intro hc
          rw [hc.1] at hno
          exact hno (List.take_prefix i p))]
    · have e1 := gv_eq_path (Node.mk (p.take i) [D, C] false ty pr
        [Node.mk (tp.drop i) ind false .static (pr - 1) cs hs ps,
         Node.mk (p.drop i) [] false .static 1 [] (mapSet [] m h) []] [] []) m'
      simp only [Node.path, Node.handlers] at e1
      rw [hqeq, e1]
      have hnotp : ¬ tp <+: p.take i := by
        intro hc
        have := hc.length_le
        rw [List.length_take_of_le (by omega)] at this
        omega
      have hqnep2 : ¬ (p.take i = p ∧ m' = m) := by
        rintro ⟨hc, -⟩
        have := congrArg List.length hc
        rw [List.length_take_of_le (by omega)] at this
        omega
      rw [gv_other (Node.mk tp ind false ty pr cs hs ps) _ m' hnotp, if_neg hqnep2]
      rfl
    · have g1 := gv_extend (p.take i) [D, C] ty pr
        [Node.mk (tp.drop i) ind false .static (pr - 1) cs hs ps,
         Node.mk (p.drop i) [] false .static 1 [] (mapSet [] m h) []] [] []
        (by simp) e rest m'
      rw [hext, g1]
      by_cases heD : e = D
      · subst heD
        have hcf : childFor [e, C]
            ([Node.mk (tp.drop i) ind false .static (pr - 1) cs hs ps,
              Node.mk (p.drop i) [] false .static 1 [] (mapSet [] m h) []] :
              List (Node α)) e =
            some (Node.mk (tp.drop i) ind false .static (pr - 1) cs hs ps) := by
          simp [childFor, listFindIdx]
        rw [hcf]
        have hRHS : Node.getValue (Node.mk tp ind false ty pr cs hs ps)
            (p.take i ++ e :: rest) m' =
            Node.getValue (Node.mk (tp.drop i) ind false .static (pr - 1) cs hs ps)
              (e :: rest) m' := by
          conv_lhs => rw [← htpdecomp]
          exact gv_prepend (p.take i) (tp.drop i) ind ty .static pr (pr - 1) cs hs ps
            (e :: rest) m'
        rw [if_neg (by
          rintro ⟨hc, -⟩
          nth_rewrite 2 [← hpdecomp] at hc
          rw [hpdecC] at hc
          have h3 := List.append_cancel_left hc
          injection h3 with h4 h5
          exact hCD h4.symm), hRHS]
      · by_cases heC : e = C
        · subst heC
          have hcf : childFor [D, e]
              ([Node.mk (tp.drop i) ind false .static (pr - 1) cs hs ps,
                Node.mk (p.drop i) [] false .static 1 [] (mapSet [] m h) []] :
                List (Node α)) e =
              some (Node.mk (p.drop i) [] false .static 1 [] (mapSet [] m h) []) := by
            have hDe : ¬ (D = e) := fun hc => heD hc.symm
            simp [childFor, listFindIdx, hDe]
          simp only [hcf]
          rw [gv_leaf]
          have hnotp : ¬ tp <+: (p.take i ++ e :: rest) := by
            have hne := ne_prefix_of_diverge tp i hsplit e rest (by
              rw [hD]
              intro hc
              exact (heD (Option.some_injective _ hc).symm : False))
            rw [← htake] at hne
            exact hne
          rw [gv_other (Node.mk tp ind false ty pr cs hs ps) _ m' hnotp]
          have hiff : (p.take i ++ e :: rest = p) ↔ (e :: rest = p.drop i) := by
            constructor
            · intro he
              nth_rewrite 2 [← hpdecomp] at he
              exact List.append_cancel_left he
            · intro he
              conv_rhs => rw [← hpdecomp]
              rw [he]
          by_cases hcd : e :: rest = p.drop i
          · rw [if_pos hcd, mapGet_mapSet]
            by_cases hm : m' = m
            · rw [if_pos (show m = m' from hm.symm), if_pos ⟨hiff.mpr hcd, hm⟩]
            · rw [if_neg (show ¬ m = m' from fun hc => hm hc.symm),
                if_neg (fun hc => hm hc.2)]
              rfl
          · rw [if_neg hcd, if_neg (fun hc => hcd (hiff.mp hc.1))]
        · have hcf : childFor [D, C]
              ([Node.mk (tp.drop i) ind false .static (pr - 1) cs hs ps,
                Node.mk (p.drop i) [] false .static 1 [] (mapSet [] m h) []] :
                List (Node α)) e = none := by
            simp [childFor, listFindIdx, Ne.symm heD, Ne.symm heC]
          simp only [hcf]
          have hnotp : ¬ tp <+: (p.take i ++ e :: rest) := by
            have hne := ne_prefix_of_diverge tp i hsplit e rest (by
              rw [hD]
              intro hc
              exact (heD (Option.some_injective _ hc).symm : False))
            rw [← htake] at hne
            exact hne
          rw [gv_other (Node.mk tp ind false ty pr cs hs ps) _ m' hnotp,
            if_neg (fun hc => hqne e rest heC hc.1)]

theorem walk_static {α : Type} : ∀ (fuel : Nat) (tp ind : List Char) (ty : NType) (pr : Nat)
    (cs : List (Node α)) (hs : List (String × α)) (ps : List (List Char))
    (p : List Char) (m : String) (h : α),
    Node.size (Node.mk tp ind false ty pr cs hs ps) < fuel →
    Node.wfS (Node.mk tp ind false ty pr cs hs ps) →
    staticPath p = true → staticPath tp = true →
    p ≠ [] → tp ≠ [] → p.head? = tp.head? → 2 ≤ pr →
    ∃ tp' ind' cs' hs' ps',
      Node.addRouteWalk fuel (Node.mk tp ind false ty pr cs hs ps) p m h =
        Except.ok (Node.mk tp' ind' false ty pr cs' hs' ps') ∧
      Node.wfS (Node.mk tp' ind' false ty pr cs' hs' ps') ∧
      staticPath tp' = true ∧ tp'.head? = tp.head? ∧ tp' ≠ [] ∧
      (∀ q m', Node.getValue (Node.mk tp' ind' false ty pr cs' hs' ps') q m' =
        (if q = p ∧ m' = m then Lookup.found h []
         else Node.getValue (Node.mk tp ind false ty pr cs hs ps) q m')) := by
  intro fuel
  induction fuel with
  | zero =>
    intro tp ind ty pr cs hs ps p m h hfuel _ _ _ _ _ _ _
    omega
  | succ fuel ih =>
    intro tp ind ty pr cs hs ps p m h hfuel hwf hsp hstp hpne htpne hhead hpr
    obtain ⟨-, hnd, hF, hsort, hall⟩ := hwf
    obtain ⟨i, hgen⟩ : ∃ i, longestCommonPrefix p tp = i := ⟨_, rfl⟩
    have hile1 : i ≤ p.length := by rw [← hgen]; exact lcp_le_left p tp
    have hile2 : i ≤ tp.length := by rw [← hgen]; exact lcp_le_right p tp
    have htake : p.take i = tp.take i := by rw [← hgen]; exact lcp_take p tp
    have hi1 : 1 ≤ i := by rw [← hgen]; exact lcp_pos p tp hpne htpne hhead
    have hlen : ind.length = cs.length := hF.length_eq
    by_cases hsplit : i < tp.length
    · obtain ⟨D, hD⟩ := getElem?_some_of_lt tp i hsplit
      by_cases hip : i < p.length
      · obtain ⟨C, hC⟩ := getElem?_some_of_lt p i hip
        have hCD : C ≠ D := by
          have hne0 := lcp_ne p tp (by rw [hgen]; omega) (by rw [hgen]; omega)
          rw [hgen] at hne0
          simp only [List.get?_eq_getElem?] at hne0
          intro he
          rw [hC, hD, he] at hne0
          exact hne0 rfl
        exact walk_split_append fuel tp ind ty pr cs hs ps p m h i D C hgen hsplit hip
          hi1 htake hnd hF hsort hall hsp hstp hpr hD hC hCD
      · exact walk_split_install fuel tp ind ty pr cs hs ps p m h i D hgen hsplit hip
          hi1 hile1 htake hnd hF hsort hall hsp hstp hpne hpr hD
    · by_cases hip : i < p.length
      · obtain ⟨C, hC⟩ := getElem?_some_of_lt p i hip
        cases hfind : listFindIdx ind C with
        | none =>
          exact walk_append fuel tp ind ty pr cs hs ps p m h i C hgen hsplit hip hile2
            htake hnd hF hsort hall hsp hstp htpne hC hfind
        | some j =>
          have hieq : i = tp.length := by omega
          have htpeq : tp = p.take i := by rw [htake, hieq, List.take_length]
          have hpdecC : p.drop i = C :: p.drop (i + 1) := by
            rw [List.drop_eq_getElem_cons hip]
            congr 1
            have h2 := List.getElem?_eq_getElem hip
            rw [hC] at h2
            exact (Option.some_injective _ h2).symm
          have hpdecomp : p.take i ++ p.drop i = p := List.take_append_drop i p
          have hpfull : tp ++ C :: p.drop (i + 1) = p := by
            rw [htpeq, ← hpdecC, hpdecomp]
          obtain ⟨hjlt, hjget⟩ := listFindIdx_spec ind C j hfind
          have hjcs : j < cs.length := by omega
          obtain ⟨cj, hcj⟩ := getElem?_some_of_lt cs j hjcs
          have hallm := (wfSAll_iff cs).mp hall
          obtain ⟨hcj1, hcj2, hcj3⟩ := hallm cj (memOfGet hcj)
          have hcjhead : cj.path.head? = some C := by
            obtain ⟨-, hp2⟩ := forall₂_iff_getElem?.mp hF
            exact hp2 j C cj hjget hcj
          rcases cj with ⟨cp, cind, cw, cty, cpr, ccs, chs, cps⟩
          obtain ⟨hcw, hcnd, hcF, hcsort, hcall⟩ := hcj3
          subst hcw
          have hcj1' : 1 ≤ cpr := hcj1
          have hcj2' : staticPath cp = true := hcj2
          have hcjhead' : cp.head? = some C := hcjhead
          rcases hicp : Node.incrementChildPrio (Node.mk tp ind false ty pr cs hs ps) j
            with ⟨np, n'⟩
          obtain ⟨hnple, hn', hmoved, hstop⟩ := icp_spec tp ind false ty pr cs hs ps j np n'
            hjcs (by omega) hicp
          have hcsget : (surgery np j (Node.listBumpAt cs j))[np]? =
              some (Node.mk cp cind false cty (cpr + 1) ccs chs cps) := by
            rw [surgery_getElem? np j _ hnple (by rw [listBumpAt_length]; omega),
              if_neg (lt_irrefl np), if_pos rfl, listBumpAt_getElem, if_pos rfl, hcj]
            rfl
          have hszcj : Node.size (Node.mk cp cind false cty (cpr + 1) ccs chs cps) < fuel := by
            have h2 := size_child_lt (Node.mk tp ind false ty pr cs hs ps)
              (Node.mk cp cind false cty cpr ccs chs cps)
              (by simpa [Node.children] using memOfGet hcj)
            have h3 : Node.size (Node.mk cp cind false cty (cpr + 1) ccs chs cps) =
                Node.size (Node.mk cp cind false cty cpr ccs chs cps) := rfl
            omega
          obtain ⟨tp2, ind2c, cs2c, hs2c, ps2c, hrec, hwfc, hstatc, hheadc, hnec, hlookc⟩ :=
            ih cp cind cty (cpr + 1) ccs chs cps (p.drop i) m h hszcj
              ⟨rfl, hcnd, hcF, hcsort, hcall⟩
              (staticPath_drop p i hsp) hcj2'
              (by rw [hpdecC]; simp)
              (by intro he; rw [he] at hcjhead'; cases hcjhead')
              (by rw [hpdecC, hcjhead']; rfl)
              (by omega)
          have heq : Node.addRouteWalk (fuel + 1) (Node.mk tp ind false ty pr cs hs ps)
              p m h =
              Except.ok (Node.mk tp (surgery np j ind) false ty pr
                ((surgery np j (Node.listBumpAt cs j)).set np
                  (Node.mk tp2 ind2c false cty (cpr + 1) cs2c hs2c ps2c)) hs ps) := by
            simp only [Node.addRouteWalk, Node.path, Node.indices]
            rw [hgen, if_neg hsplit, if_pos hip]
            nth_rewrite 1 [hpdecC]
            simp only [hfind]
            rw [hicp]
            simp only [hn', Node.children]
            simp only [show ((surgery np j (Node.listBumpAt cs j)).get? np) =
              some (Node.mk cp cind false cty (cpr + 1) ccs chs cps) from by
              rw [List.get?_eq_getElem?]; exact hcsget]
            simp only [hrec]
            simp only [Node.setChildAt]
          refine ⟨tp, surgery np j ind,
            (surgery np j (Node.listBumpAt cs j)).set np
              (Node.mk tp2 ind2c false cty (cpr + 1) cs2c hs2c ps2c), hs, ps,
            heq, ?_, hstp, rfl, htpne, ?_⟩
          · refine ⟨rfl, ?_, ?_, ?_, ?_⟩
            · exact ((surgery_perm np j ind hnple (by omega)).nodup_iff).mpr hnd
            · refine forall₂_set _ _ (forall₂_surgery np j ind (Node.listBumpAt cs j) hnple
                (by omega) (forall₂_head_listBumpAt ind cs j hF)) np C _ ?_ ?_
              · rw [surgery_getElem? np j ind hnple (by omega), if_neg (lt_irrefl np),
                  if_pos rfl]
                exact hjget
              · show tp2.head? = some C
                rw [hheadc]
                exact hcjhead'
            · refine sorted_set_same_prio _ np
                (Node.mk cp cind false cty (cpr + 1) ccs chs cps) _ hcsget rfl ?_
              exact sorted_surgery cs np j hnple hjcs hsort hmoved hstop
            · refine wfSAll_set _ np _ (wfSAll_of_perm _ _
                (surgery_perm np j _ hnple (by rw [listBumpAt_length]; omega))
                (wfSAll_listBumpAt cs j hall)) ?_
              exact ⟨by show 1 ≤ cpr + 1; omega, hstatc, hwfc⟩
          · have hdeep := gv_walk_deep tp ind (surgery np j ind) ty ty pr pr cs
              ((surgery np j (Node.listBumpAt cs j)).set np
                (Node.mk tp2 ind2c false cty (cpr + 1) cs2c hs2c ps2c)) hs ps ps
              C (p.drop (i + 1)) m h hlen
              (by rw [surgery_length np j ind hnple (by omega), List.length_set,
                surgery_length np j _ hnple (by rw [listBumpAt_length]; omega),
                listBumpAt_length]
                  exact hlen)
              (by intro e he
                  rw [childFor_surgery_set ind (Node.listBumpAt cs j) np j _ C
                    (by rw [listBumpAt_length]; exact hlen) hnple
                    (by rw [listBumpAt_length]; omega) hnd hjget e, if_neg he,
                    childFor_listBumpAt_ne ind cs j C hjget e he])
              (by intro q2 m''
                  rw [childFor_surgery_set ind (Node.listBumpAt cs j) np j _ C
                    (by rw [listBumpAt_length]; exact hlen) hnple
                    (by rw [listBumpAt_length]; omega) hnd hjget C, if_pos rfl]
                  rw [show childFor ind cs C =
                    some (Node.mk cp cind false cty cpr ccs chs cps) from by
                    simp only [childFor, hfind]; exact hcj]
                  have hl := hlookc (C :: q2) m''
                  rw [hpdecC] at hl
                  have hb : Node.getValue
                      (Node.mk cp cind false cty (cpr + 1) ccs chs cps) (C :: q2) m'' =
                      Node.getValue (Node.mk cp cind false cty cpr ccs chs cps)
                        (C :: q2) m'' :=
                    getValue_bump (Node.mk cp cind false cty cpr ccs chs cps) _ _
                  rw [hb] at hl
                  show Node.getValue (Node.mk tp2 ind2c false cty (cpr + 1) cs2c hs2c ps2c)
                    (C :: q2) m'' = _
                  rw [hl]
                  by_cases hcond : q2 = p.drop (i + 1) ∧ m'' = m
                  · rw [if_pos (show (C :: q2 = C :: p.drop (i + 1) ∧ m'' = m) from
                      ⟨by rw [hcond.1], hcond.2⟩), if_pos hcond]
                  · rw [if_neg (show ¬ (C :: q2 = C :: p.drop (i + 1) ∧ m'' = m) from by
                      rintro ⟨h1, h2⟩
                      injection h1 with h3 h4
                      exact hcond ⟨h4, h2⟩), if_neg hcond])
            intro q m'
            rw [hdeep q m', hpfull]
      · exact walk_install fuel tp ind ty pr cs hs ps p m h i hgen hsplit hip hile1 hile2
          htake hnd hF hsort hall hstp htpne

theorem addRoute_static {α : Type} (t : Node α) (p : List Char) (m : String) (h : α)
    (hroot : rootState t) (hsp : staticPath p = true) (hp0 : p.head? = some '/') :
    ∃ t', Node.addRoute t p m h = Except.ok t' ∧ rootOk t' ∧
      ∀ q m', Node.getValue t' q m' =
        (if q = p ∧ m' = m then Lookup.found h [] else Node.getValue t q m') := by
  have hpne : p ≠ [] := by
    intro he
    rw [he] at hp0
    cases hp0
  rcases hroot with rfl | hok
  · -- first registration into the empty tree
    have heq : Node.addRoute (Node.empty : Node α) p m h =
        Except.ok (Node.mk p [] false .root 1 [] (mapSet [] m h) []) := by
      show Node.addRoute (Node.mk [] [] false .static 0 [] [] []) p m h = _
      simp only [Node.addRoute, Node.bumpPrio, Node.path, Node.children]
      rw [if_pos ⟨rfl, rfl⟩]
      simp only [insertChild_static p.length [] [] false NType.static (0 + 1) [] [] []
        p m h hsp]
      simp only [Node.setNType]
    refine ⟨Node.mk p [] false .root 1 [] (mapSet [] m h) [], heq,
      ⟨⟨rfl, List.nodup_nil, List.Forall₂.nil, rfl, trivial⟩, hsp, hp0, le_refl 1⟩, ?_⟩
    intro q m'
    rw [gv_leaf, gv_empty]
    by_cases hq : q = p
    · rw [if_pos hq, mapGet_mapSet]
      by_cases hm : m' = m
      · rw [if_pos (show m = m' from hm.symm), if_pos ⟨hq, hm⟩]
      · rw [if_neg (show ¬ m = m' from fun hc => hm hc.symm), if_neg (fun hc => hm hc.2)]
        rfl
    · rw [if_neg hq, if_neg (fun hc => hq hc.1)]
  · obtain ⟨hwf, hstat, hhd, hprio⟩ := hok
    rcases t with ⟨tp, ind, w, ty, pr, cs, hs, ps⟩
    obtain ⟨hw, hnd, hF, hsort, hall⟩ := hwf
    subst hw
    have htpne : tp ≠ [] := by
      intro he
      rw [show (Node.mk tp ind false ty pr cs hs ps).path = tp from rfl, he] at hhd
      cases hhd
    have hstat' : staticPath tp = true := hstat
    have hhd' : tp.head? = some '/' := hhd
    have hprio' : 1 ≤ pr := hprio
    obtain ⟨tp', ind', cs', hs', ps', hwalk, hwf', hstat2, hhead2, hne2, hlook2⟩ :=
      walk_static (Node.size (Node.mk tp ind false ty (pr + 1) cs hs ps) + p.length + 1)
        tp ind ty (pr + 1) cs hs ps p m h (by omega)
        ⟨rfl, hnd, hF, hsort, hall⟩ hsp hstat' hpne htpne
        (by rw [hp0, hhd']) (by omega)
    have heq : Node.addRoute (Node.mk tp ind false ty pr cs hs ps) p m h =
        Except.ok (Node.mk tp' ind' false ty (pr + 1) cs' hs' ps') := by
      simp only [Node.addRoute, Node.bumpPrio, Node.path, Node.children]
      rw [if_neg (show ¬ (tp.length = 0 ∧ cs.length = 0) from by
        rintro ⟨h1, -⟩
        exact htpne (List.length_eq_zero.mp h1))]
      exact hwalk
    refine ⟨Node.mk tp' ind' false ty (pr + 1) cs' hs' ps', heq,
      ⟨hwf', hstat2, by rw [show (Node.mk tp' ind' false ty (pr + 1) cs' hs' ps').path = tp'
        from rfl, hhead2]; exact hhd', by show 1 ≤ pr + 1; omega⟩, ?_⟩
    intro q m'
    rw [hlook2 q m']
    by_cases hc : q = p ∧ m' = m
    · rw [if_pos hc, if_pos hc]
    · rw [if_neg hc, if_neg hc]
      exact getValue_bump (Node.mk tp ind false ty pr cs hs ps) q m'

theorem regList_static {α : Type} : ∀ (rs : List (List Char × String × α)) (t0 : Node α)
    (acc : List ((List Char × String) × α)),
    rootState t0 →
    (∀ r ∈ rs, staticPath r.1 = true ∧ r.1.head? = some '/') →
    (∀ q m', Node.getValue t0 q m' =
      (match mapGet acc (q, m') with
       | some hh => Lookup.found hh []
       | none => Lookup.miss)) →
    ∀ t, regList t0 rs = Except.ok t →
    rootState t ∧
    ∀ q m', Node.getValue t q m' =
      (match mapGet (rs.foldl (fun a r => mapSet a (r.1, r.2.1) r.2.2) acc) (q, m') with
       | some hh => Lookup.found hh []
       | none => Lookup.miss) := by
  intro rs
  induction rs with
  | nil =>
    intro t0 acc hroot _ hbase t hreg
    simp only [regList] at hreg
    injection hreg with h2
    subst h2
    exact ⟨hroot, hbase⟩
  | cons r rs ihr =>
    intro t0 acc hroot hstat hbase t hreg
    obtain ⟨p0, m0, h0⟩ := r
    obtain ⟨t1, ht1, hok1, hlook1⟩ := addRoute_static t0 p0 m0 h0 hroot
      (hstat (p0, m0, h0) (List.mem_cons_self _ _)).1
      (hstat (p0, m0, h0) (List.mem_cons_self _ _)).2
    simp only [regList, ht1] at hreg
    have hres := ihr t1 (mapSet acc (p0, m0) h0) (Or.inr hok1)
      (fun r hr => hstat r (List.mem_cons_of_mem _ hr))
      (fun q m' => by
        rw [hlook1 q m', mapGet_mapSet]
        by_cases hc : q = p0 ∧ m' = m0
        · rw [if_pos hc, if_pos (show (p0, m0) = (q, m') from by rw [hc.1, hc.2])]
        · rw [if_neg hc, if_neg (show ¬ (p0, m0) = (q, m') from by
            intro he
            injection he with he1 he2
            exact hc ⟨he1.symm, he2.symm⟩), hbase q m'])
      t hreg
    simpa only [List.foldl_cons] using hres

theorem childrenOk_of_forall₂ {α : Type} : ∀ (ind : List Char) (cs : List (Node α)),
    List.Forall₂ (fun c child => child.path.head? = some c) ind cs →
    Node.childrenOk ind cs = true := by
  intro ind
  induction ind with
  | nil =>
    intro cs hf
    cases hf
    rfl
  | cons c ind ihc =>
    intro cs hf
    cases hf with
    | cons hr hf' =>
      rename_i child cs'
      have hg : child.path.get? 0 = some c := by
        cases hp : child.path with
        | nil => rw [hp] at hr; cases hr
        | cons x xs =>
          rw [hp] at hr
          simp only [List.head?_cons, Option.some.injEq] at hr
          rw [hr]
          rfl
      show (decide (child.path.get? 0 = some c) && Node.childrenOk ind cs') = true
      rw [ihc cs' hf']
      have hg2 : child.path[0]? = some c := by
        rw [← List.get?_eq_getElem?]
        exact hg
      simp [hg2]

theorem wfS_invariant_strong {α : Type} : ∀ (N : Nat),
    (∀ (n : Node α), Node.size n ≤ N → Node.wfS n → Node.invariantHolds n = true) ∧
    (∀ (cs : List (Node α)), Node.sizeList cs ≤ N → Node.wfSAll cs →
      Node.invariantAll cs = true) := by
  intro N
  induction N with
  | zero =>
    constructor
    · intro n hsz _
      have := size_pos n
      omega
    · intro cs hsz hall
      cases cs with
      | nil => rfl
      | cons c cs =>
        exfalso
        have h1 := size_pos c
        have h2 : Node.sizeList (c :: cs) = Node.size c + Node.sizeList cs := rfl
        omega
  | succ N ihN =>
    have nodePart : ∀ (n : Node α), Node.size n ≤ N + 1 → Node.wfS n →
        Node.invariantHolds n = true := by
      intro n hsz hwf
      rcases n with ⟨p1, ind, w, ty, pr, cs, hs, ps⟩
      obtain ⟨hw, hnd, hF, hsort, hall⟩ := hwf
      show (Node.childrenOk ind cs && Node.sortedByPrio cs && Node.invariantAll cs) = true
      have hszl : Node.size (Node.mk p1 ind w ty pr cs hs ps) = 1 + Node.sizeList cs := rfl
      rw [childrenOk_of_forall₂ ind cs hF, hsort, ihN.2 cs (by omega) hall]
      rfl
    refine ⟨nodePart, ?_⟩
    intro cs hsz hall
    cases cs with
    | nil => rfl
    | cons c cs =>
      obtain ⟨⟨h1, h2, h3⟩, h4⟩ := hall
      have hszc : Node.sizeList (c :: cs) = Node.size c + Node.sizeList cs := rfl
      have hcp := size_pos c
      show (Node.invariantHolds c && Node.invariantAll cs) = true
      rw [nodePart c (by omega) h3, ihN.2 cs (by omega) h4]
      rfl

/-- C3 (amended): for every sequence of wildcard-free registrations that all
succeed, getValue on the resulting tree returns, for each (path, method), the
handler of the most recent registration for that pair with an empty parameter
map (there are no wildcard names along a static matched path), and misses on
unregistered paths. -/
theorem static_routes_lookup_returns_latest_handler {α : Type}
    (rs : List (List Char × String × α)) (t : Node α)
    (hstat : ∀ r ∈ rs, staticPath r.1 = true ∧ r.1.head? = some '/')
    (hreg : regList Node.empty rs = Except.ok t) (p : List Char) (m : String) :
    Node.getValue t p m =
      (match mapGet (specMap rs) (p, m) with
       | some hh => Lookup.found hh []
       | none => Lookup.miss) := by
  have hres := regList_static rs Node.empty [] (Or.inl rfl) hstat
    (fun q m' => by rw [gv_empty]; rfl) t hreg
  exact hres.2 p m

/-- C3 witness: three static registrations with a duplicate; lookup of the
duplicated path returns the latest handler with no parameters. -/
theorem static_routes_lookup_returns_latest_handler_witness :
    Node.getValue (okD (regList Node.empty
      [("/a".toList, "GET", 1), ("/a".toList, "GET", 2), ("/ab".toList, "GET", 3)] :
      Except String (Node Nat))) "/a".toList "GET" = Lookup.found 2 [] := by
  have hh := static_routes_lookup_returns_latest_handler
    [("/a".toList, "GET", (1 : Nat)), ("/a".toList, "GET", 2), ("/ab".toList, "GET", 3)]
    (okD (regList Node.empty
      [("/a".toList, "GET", 1), ("/a".toList, "GET", 2), ("/ab".toList, "GET", 3)]))
    (by decide) rfl "/a".toList "GET"
  rw [hh]
  rfl

/-- C6 (amended): after every sequence of successful wildcard-free
registrations, every node of the tree satisfies
len(indices) == len(children) with children[i].path[0] == indices[i], and the
children are sorted in non-increasing priority order. -/
theorem static_registration_preserves_invariant {α : Type}
    (rs : List (List Char × String × α)) (t : Node α)
    (hstat : ∀ r ∈ rs, staticPath r.1 = true ∧ r.1.head? = some '/')
    (hreg : regList Node.empty rs = Except.ok t) :
    Node.invariantHolds t = true := by
  have hres := regList_static rs Node.empty [] (Or.inl rfl) hstat
    (fun q m' => by rw [gv_empty]; rfl) t hreg
  rcases hres.1 with rfl | hok
  · rfl
  · exact (wfS_invariant_strong (Node.size t)).1 t (le_refl _) hok.1

/-- C6 witness: a three-route static registration sequence (forcing an edge
split and sibling reordering) keeps the node invariant. -/
theorem static_registration_preserves_invariant_witness :
    Node.invariantHolds (okD (regList Node.empty
      [("/a".toList, "GET", 1), ("/ab".toList, "GET", 2), ("/b".toList, "GET", 3)] :
      Except String (Node Nat))) = true :=
  static_registration_preserves_invariant
    [("/a".toList, "GET", 1), ("/ab".toList, "GET", 2), ("/b".toList, "GET", 3)]
    (okD (regList Node.empty
      [("/a".toList, "GET", 1), ("/ab".toList, "GET", 2), ("/b".toList, "GET", 3)]))
    (by decide) rfl

end Aqylly
